import Mathlib

/-!
Verification of the halite_ranking repository against its specification.

Games are modelled as association lists from players to integer ranks
(Python dicts preserve insertion order and have distinct keys; rank is a
1-based ordinal, lower is better).  Exact rational / real arithmetic
stands in for floating point; fallible code returns `Option`, with
`none` standing for a raised exception.
-/

abbrev Player := ℕ

abbrev Game := List (Player × ℤ)

/-- The keys of a game dict, in insertion order (`ranking.keys()`). -/
def keys (g : Game) : List Player := g.map (fun x => x.1)

/-- The rank values of a game dict, in insertion order (`ranking.values()`). -/
def ranks (g : Game) : List ℤ := g.map (fun x => x.2)

/-- `max(ranking.values())`; Python raises on an empty dict, the `getD 0`
junk value is only reached for inputs on which the source would raise. -/
def maxRank (g : Game) : ℤ := (ranks g).max?.getD 0

/-- `ranking.get(player)`: dict lookup (first matching key). -/
def rankOf (g : Game) (p : Player) : Option ℤ := List.lookup p g

/-! ## pl_ranking.py: the Plackett-Luce MM estimator (`pl_python`) -/

/-- `players = set(key for ranking in rankings for key in ranking.keys())`,
as a duplicate-free list. -/
def plPlayers (rankings : List Game) : List Player := (rankings.flatMap keys).dedup

/-- `ws = Counter(name for ranking in rankings for name, finish in ranking.items()
if finish < max(ranking.values()))` (pl_ranking.py line 39). -/
def ws (rankings : List Game) (p : Player) : ℕ :=
  (rankings.map (fun g => (g.filter (fun x => decide (x.1 = p ∧ x.2 < maxRank g))).length)).sum

/-- `sorted(ranking.values())`: Python's stable ascending sort. -/
def sortedRanks (g : Game) : List ℤ := List.insertionSort (fun a b => a ≤ b) (ranks g)

/-- `sum(gammas[finisher] for finisher, finish in ranking.items() if finish >= place)`. -/
def suffixGammas (gammas : Player → ℚ) (g : Game) (place : ℤ) : ℚ :=
  ((g.filter (fun x => decide (place ≤ x.2))).map (fun x => gammas x.1)).sum

/-- One summand of the denominator:
`0 if ranking.get(player,-1) < place else 1 / sum(...)` (pl_ranking.py lines 46-47). -/
def placeTerm (gammas : Player → ℚ) (g : Game) (p : Player) (place : ℤ) : ℚ :=
  if (rankOf g p).getD (-1) < place then 0 else 1 / suffixGammas gammas g place

/-- A single game's contribution to `denoms[player]`: the inner sum over
`place in sorted(ranking.values())[:-1]` (pl_ranking.py line 48). -/
def gameDenom (gammas : Player → ℚ) (g : Game) (p : Player) : ℚ :=
  ((sortedRanks g).dropLast.map (placeTerm gammas g p)).sum

/-- `denoms[player]` (pl_ranking.py lines 46-49). -/
def denoms (rankings : List Game) (gammas : Player → ℚ) (p : Player) : ℚ :=
  (rankings.map (fun g => gameDenom gammas g p)).sum

/-- One MM iteration: `gammas = {player : ws[player] / denoms[player] ...}`
computed entirely from the previous iteration's gamma dict. -/
def plStep (rankings : List Game) (gammas : Player → ℚ) : Player → ℚ :=
  fun p => (ws rankings p : ℚ) / denoms rankings gammas p

/-- `gammas = {player : 1.0 / len(players) for player in players}`. -/
def plInit (rankings : List Game) : Player → ℚ :=
  fun _ => 1 / ((plPlayers rankings).length : ℚ)

/-- The squared Euclidean distance between successive gamma vectors
(the source compares `math.sqrt` of this against the tolerance; comparing
squares against the squared tolerance is the same test for a
nonnegative tolerance, and keeps the embedding in exact arithmetic). -/
def gdiffSq (rankings : List Game) (g g' : Player → ℚ) : ℚ :=
  ((plPlayers rankings).map (fun p => (g' p - g p) ^ 2)).sum

/-- The `while gdiff > tolerance` loop of `pl_python`, with explicit fuel;
`none` means the fuel ran out before the loop exited. -/
def plRunAux (rankings : List Game) (tolSq : ℚ) :
    ℕ → (Player → ℚ) → ℚ → Option (Player → ℚ)
  | fuel, gammas, dSq =>
    if dSq ≤ tolSq then some gammas
    else
      match fuel with
      | 0 => none
      | fuel' + 1 =>
        plRunAux rankings tolSq fuel' (plStep rankings gammas)
          (gdiffSq rankings gammas (plStep rankings gammas))

/-- `pl_python(rankings, tolerance)`:  start from the uniform gamma dict
and `gdiff = 10` (squared: 100) and iterate until convergence. -/
def pl_python (rankings : List Game) (tolSq : ℚ) (fuel : ℕ) : Option (Player → ℚ) :=
  plRunAux rankings tolSq fuel (plInit rankings) 100

/-- Rename the players of one game by `pi` (dict keys mapped, ranks kept). -/
def renameGame (pi : Player → Player) (g : Game) : Game :=
  g.map (fun x => (pi x.1, x.2))

/-- Rename the players of every game by `pi`. -/
def renameGames (pi : Player → Player) (rankings : List Game) : List Game :=
  rankings.map (renameGame pi)

/-- The iteration denominator as the specification sentence for C1 words it:
a sum over every game `p` participated in and over every *distinct* rank
value in that game except the last, of the reciprocal of the suffix gamma
sum — with no term for places below the player's own rank.  This definition
follows the claim, not the source; it is compared against `denoms`. -/
def denomsSpec (rankings : List Game) (gammas : Player → ℚ) (p : Player) : ℚ :=
  (rankings.map (fun g =>
    if p ∈ keys g then
      ((sortedRanks g).dedup.dropLast.map (fun place => 1 / suffixGammas gammas g place)).sum
    else 0)).sum

/-- The update rule exactly as claim C1 states it. -/
def plStepSpec (rankings : List Game) (gammas : Player → ℚ) : Player → ℚ :=
  fun p => (ws rankings p : ℚ) / denomsSpec rankings gammas p

/-! ## pl_ranking.py: `check_games` (lines 113-146) -/

/-- A `pc` entry `[win, loss]`: `true` models the initial `1` ("still
missing"), `false` models `0` ("seen").  First component: no win seen;
second: no loss seen. -/
abbrev PCEntry := Bool × Bool

/-- The `pc` dict, in insertion order. -/
abbrev PC := List (Player × PCEntry)

/-- Read a `pc` entry, defaulting to `[1, 1]` as `setdefault` would. -/
def pcGet (pc : PC) (u : Player) : PCEntry := (List.lookup u pc).getD (true, true)

/-- `pc.setdefault(user, [1, 1])[0] = 0`: record that `user` has a win. -/
def pcSetWin (pc : PC) (u : Player) : PC :=
  if (List.lookup u pc).isSome then
    pc.map (fun e => if e.1 = u then (e.1, (false, e.2.2)) else e)
  else pc ++ [(u, (false, true))]

/-- `pc.setdefault(user, [1, 1])[1] = 0`: record that `user` has a loss. -/
def pcSetLoss (pc : PC) (u : Player) : PC :=
  if (List.lookup u pc).isSome then
    pc.map (fun e => if e.1 = u then (e.1, (e.2.1, false)) else e)
  else pc ++ [(u, (true, false))]

/-- The running state of the inner loop of `check_games`:
`max_rank`, `max_user`, and the `pc` dict. -/
structure CGState where
  max_rank : ℤ
  max_user : Option Player
  pc : PC

/-- One step of the inner loop of `check_games` (lines 120-129). -/
def cgItem (st : CGState) (x : Player × ℤ) : CGState :=
  let pc1 := if 1 < x.2 then pcSetLoss st.pc x.1 else st.pc
  if st.max_rank < x.2 then
    ⟨x.2, some x.1, match st.max_user with
                    | some m => pcSetWin pc1 m
                    | none => pc1⟩
  else if x.2 < st.max_rank then ⟨st.max_rank, st.max_user, pcSetWin pc1 x.1⟩
  else ⟨st.max_rank, st.max_user, pc1⟩

/-- Process one game of `check_games`: `max_rank = 0`, `max_user = None`,
then the item loop. -/
def cgGame (pc : PC) (g : Game) : PC := (g.foldl cgItem ⟨0, none, pc⟩).pc

/-- `missing_wl = sum(w+l for w, l in pc.values())`. -/
def missing_wl (pc : PC) : ℕ :=
  (pc.map (fun e => (if e.2.1 then 1 else 0) + (if e.2.2 then 1 else 0))).sum

/-- The winners/losers collection loop of `check_games` (lines 132-144);
`none` models the `raise Exception("Player with neither win or loss")`. -/
def collectWL (pc : PC) : Option (List Player × List Player) :=
  pc.foldlM
    (fun (acc : List Player × List Player) e =>
      if !e.2.1 && !e.2.2 then some acc
      else if e.2.1 && e.2.2 then none
      else if e.2.1 then some (acc.1, acc.2 ++ [e.1])
      else some (acc.1 ++ [e.1], acc.2))
    ([], [])

/-- `check_games(games)`: returns `(winners, losers)` when something is
flagged and `(None, None)` otherwise; outer `none` models the raise. -/
def check_games (games : List Game) : Option (Option (List Player) × Option (List Player)) :=
  let pc := games.foldl cgGame []
  if 0 < missing_wl pc then (collectWL pc).map (fun r => (some r.1, some r.2))
  else some (none, none)

/-- `foldl max`, the running `max_rank` of a rank list started at `mr`. -/
def foldMax (mr : ℤ) (rs : List ℤ) : ℤ := rs.foldl max mr

/-- Win recorded while scanning the items `t` from running max `mr` and
running max-holder `mu`: either the player finishes below the final
running maximum, or they are the carried max-holder and get overtaken. -/
def scanWin (t : List (Player × ℤ)) (mr : ℤ) (mu : Option Player) (u : Player) : Bool :=
  t.any (fun y => decide (y.1 = u) && decide (y.2 < foldMax mr (t.map (fun z => z.2)))) ||
    match mu with
    | some m => decide (m = u) && t.any (fun y => decide (mr < y.2))
    | none => false

/-- Loss recorded while scanning the items `t`: some rank of `u` exceeds 1. -/
def scanLoss (t : List (Player × ℤ)) (u : Player) : Bool :=
  t.any (fun y => decide (y.1 = u) && decide (1 < y.2))

/-- `u` has a win indicator in `games`: some game where `u`'s rank is
strictly below that game's maximum rank. -/
def hasWin (games : List Game) (u : Player) : Bool :=
  games.any (fun g => g.any (fun x => decide (x.1 = u) && decide (x.2 < maxRank g)))

/-- `u` has a loss indicator in `games`: some game where `u`'s rank exceeds 1. -/
def hasLoss (games : List Game) (u : Player) : Bool :=
  games.any (fun g => g.any (fun x => decide (x.1 = u) && decide (1 < x.2)))

/-- `p` appears in some game. -/
def inGames (games : List Game) (p : Player) : Bool :=
  games.any (fun g => g.any (fun x => decide (x.1 = p)))

/-- `p` finishes strictly better than some co-participant in some game. -/
def beatsSomeone (games : List Game) (p : Player) : Bool :=
  games.any (fun g => g.any (fun x => decide (x.1 = p) && g.any (fun y => decide (x.2 < y.2))))

/-- Some co-participant finishes strictly better than `p` in some game. -/
def isBeaten (games : List Game) (p : Player) : Bool :=
  games.any (fun g => g.any (fun x => decide (x.1 = p) && g.any (fun y => decide (y.2 < x.2))))

/-- Claim C6's "always-lost" set: participants who never finish strictly
better than any co-participant. -/
def alwaysLostSpec (games : List Game) (p : Player) : Prop :=
  inGames games p = true ∧ beatsSomeone games p = false

/-- Claim C6's "always-won" set: participants who are never beaten. -/
def alwaysWonSpec (games : List Game) (p : Player) : Prop :=
  inGames games p = true ∧ isBeaten games p = false

/-- Well-formed game record for the C6 analysis: distinct players, distinct
1-based ranks including a first place, and at least two participants. -/
def wfGame (g : Game) : Prop :=
  (keys g).Nodup ∧ (ranks g).Nodup ∧ (∀ x ∈ g, 1 ≤ x.2) ∧ (1 : ℤ) ∈ ranks g ∧ 2 ≤ g.length

/-! ## rating_stats.py: the evaluator -/

/-- `pl_order(a, b)`: `a > b` (rating_stats.py lines 61-62). -/
def pl_order (a b : ℚ) : Bool := decide (b < a)

/-- `gameranks = sorted(game.items(), key=lambda x: x[1])`: the stable
ascending sort by rank. -/
def gameranks (g : Game) : List (Player × ℤ) :=
  List.insertionSort (fun a b => a.2 ≤ b.2) g

/-- All ordered pairs `(l[i], l[j])` with `i < j`, as the two nested loops
`for pix, player in enumerate(gameranks[:-1]): for opp in gameranks[pix+1:]`
produce them. -/
def listPairs {α : Type} : List α → List (α × α)
  | [] => []
  | x :: xs => xs.map (fun y => (x, y)) ++ listPairs xs

/-- Every evaluated ordered pair of co-participants across the held-out games. -/
def evalPairs (games : List Game) : List ((Player × ℤ) × (Player × ℤ)) :=
  games.flatMap (fun g => listPairs (gameranks g))

/-- The `if subjects and player not in subjects and opp not in subjects:
continue` filter; `none`/`[]` are falsy. -/
def skipPair (subjects : Option (List Player)) (pr : (Player × ℤ) × (Player × ℤ)) : Bool :=
  match subjects with
  | some s => !s.isEmpty && !s.contains pr.1.1 && !s.contains pr.2.1
  | none => false

/-- A pair whose player or opponent is absent from the rating table
(`player not in ratings or opp not in ratings`). -/
def missedPair {α : Type} (ratings : Player → Option α) (pr : (Player × ℤ) × (Player × ℤ)) : Bool :=
  (ratings pr.1.1).isNone || (ratings pr.2.1).isNone

/-- The wrong-prediction test of `ratings_order_error` (lines 77-82):
evaluate the order predicate in both directions, count the pair wrong when
indecisive or when disagreeing with the true finish order; `false` for a
missed pair, which the loop skips before this test. -/
def wrongPair {α : Type} (ratings : Player → Option α) (rank_order : α → α → Bool)
    (pr : (Player × ℤ) × (Player × ℤ)) : Bool :=
  match ratings pr.1.1, ratings pr.2.1 with
  | some rp, some ro =>
    (rank_order rp ro == rank_order ro rp) ||
      (rank_order rp ro != decide (pr.1.2 < pr.2.2))
  | _, _ => false

/-- `ratings_order_error(game_results, ratings, rank_order, subjects)`
(rating_stats.py lines 64-88); `none` models the `ZeroDivisionError` of
`num_wrong / num_predictions` when no pair was scored. -/
def ratings_order_error {α : Type} (games : List Game) (ratings : Player → Option α)
    (rank_order : α → α → Bool) (subjects : Option (List Player)) : Option ℚ :=
  let prs := (evalPairs games).filter (fun pr => !skipPair subjects pr)
  let num_wrong := prs.countP (wrongPair ratings rank_order)
  let num_predictions := prs.countP (fun pr => !missedPair ratings pr)
  if num_predictions = 0 then none
  else some ((num_wrong : ℚ) / (num_predictions : ℚ))

/-- One squared error of `ratings_rmse`: `(winp - winr)**2` with
`winr = 1 if prank < orank else 0`; `0` for a missed pair. -/
noncomputable def pairSqError {α : Type} (ratings : Player → Option α) (winp : α → α → ℝ)
    (pr : (Player × ℤ) × (Player × ℤ)) : ℝ :=
  match ratings pr.1.1, ratings pr.2.1 with
  | some rp, some ro => (winp rp ro - (if pr.1.2 < pr.2.2 then 1 else 0)) ^ 2
  | _, _ => 0

/-- `ratings_rmse(game_results, ratings, winp_func, subjects)`
(rating_stats.py lines 35-56); `none` models the `ZeroDivisionError`. -/
noncomputable def ratings_rmse {α : Type} (games : List Game) (ratings : Player → Option α)
    (winp : α → α → ℝ) (subjects : Option (List Player)) : Option ℝ :=
  let prs := (evalPairs games).filter (fun pr => !skipPair subjects pr)
  let sum_errors := (prs.map (fun pr => if missedPair ratings pr then 0 else pairSqError ratings winp pr)).sum
  let num_predictions := prs.countP (fun pr => !missedPair ratings pr)
  if num_predictions = 0 then none
  else some (Real.sqrt (sum_errors / (num_predictions : ℝ)))

/-- Claim C4's wrongness condition, worded from the spec: the decisive-order
predicate gives the same answer in both directions, or its verdict disagrees
with the true finish order (first player's rank strictly lower). -/
def indecisiveOrDisagrees {α : Type} (ratings : Player → Option α)
    (rank_order : α → α → Bool) (pr : (Player × ℤ) × (Player × ℤ)) : Bool :=
  match ratings pr.1.1, ratings pr.2.1 with
  | some rp, some ro =>
    decide (rank_order rp ro = rank_order ro rp ∨ rank_order rp ro ≠ decide (pr.1.2 < pr.2.2))
  | _, _ => false

/-! ## cross_validate.py: `rank_order` and `check_predictions` -/

/-- `rank_order(ratings, a, b)`: `ratings[a] > ratings[b]`
(cross_validate.py lines 36-37); `none` models the `KeyError` on a missing
player. -/
def rank_order (ratings : Player → Option ℚ) (a b : Player) : Option Bool :=
  match ratings a, ratings b with
  | some x, some y => some (decide (y < x))
  | _, _ => none

/-- `check_predictions(test_results, ratings, order)` (cross_validate.py
lines 44-56).  A raised `KeyError` inside `order` aborts the whole call;
`none` also models the `ZeroDivisionError` when there are no pairs. -/
def check_predictions {α : Type} (test : List Game) (ratings : Player → Option α)
    (order : (Player → Option α) → Player → Player → Option Bool) : Option ℚ := do
  let counts ← test.foldlM
    (fun (acc : ℕ × ℕ) g =>
      (listPairs (gameranks g)).foldlM
        (fun (acc2 : ℕ × ℕ) pr => do
          let better ← order ratings pr.1.1 pr.2.1
          let worse ← order ratings pr.2.1 pr.1.1
          pure (acc2.1 + (if (better == worse) || (better != decide (pr.1.2 < pr.2.2)) then 1 else 0),
            acc2.2 + 1))
        acc)
    ((0, 0) : ℕ × ℕ)
  if counts.2 = 0 then none else some ((counts.1 : ℚ) / (counts.2 : ℚ))

/-! ## wl_ranking.py: the Weng-Lin online updaters -/

/-- `MU = 25.` -/
noncomputable def MU : ℝ := 25

/-- `SIGMA = MU / 3` -/
noncomputable def SIGMA : ℝ := MU / 3

/-- `BETA = SIGMA / 2` -/
noncomputable def BETA : ℝ := SIGMA / 2

/-- `Rating = namedtuple("Rating", ("mu", "sigma"))` -/
structure Rating where
  mu : ℝ
  sigma : ℝ

/-- The mutable `mu` / `sigma` dicts of the updaters, as total functions
(only values at players of the games reach the returned table). -/
structure WLState where
  mu : Player → ℝ
  sigma : Player → ℝ

/-- `players = list(set(p for game in game_results for p in game))`. -/
def wlPlayers (games : List Game) : List Player := (games.flatMap keys).dedup

/-- `mu = {p: last_ratings.get(p, first).mu ...}` and likewise `sigma`:
the initial state built from the caller's `last_ratings` (read-only) and
the prior `Rating(MU, SIGMA)`. -/
noncomputable def wlInit (last : Player → Option Rating) : WLState :=
  ⟨fun p => ((last p).getD ⟨MU, SIGMA⟩).mu, fun p => ((last p).getD ⟨MU, SIGMA⟩).sigma⟩

/-- The observed score `s`: `1` if the opponent ranks worse, `0.5` on a tie,
else `0` (wl_ranking.py lines 41-45). -/
noncomputable def btS (prank orank : ℤ) : ℝ :=
  if prank < orank then 1 else if orank = prank then 1 / 2 else 0

/-- `omega[player]` accumulated over the game's opponents
(wl_ranking.py lines 36-47). -/
noncomputable def btOmega (st : WLState) (g : Game) (player : Player) (prank : ℤ) : ℝ :=
  (g.map (fun x =>
    if x.1 = player then 0
    else
      let ciq := Real.sqrt (st.sigma player ^ 2 + st.sigma x.1 ^ 2 + 2 * BETA ^ 2)
      let piq := 1 / (1 + Real.exp ((st.mu x.1 - st.mu player) / ciq))
      st.sigma player ^ 2 / ciq * (btS prank x.2 - piq))).sum

/-- `delta[player]` accumulated over the game's opponents
(wl_ranking.py lines 48-49). -/
noncomputable def btDelta (st : WLState) (g : Game) (player : Player) : ℝ :=
  (g.map (fun x =>
    if x.1 = player then 0
    else
      let ciq := Real.sqrt (st.sigma player ^ 2 + st.sigma x.1 ^ 2 + 2 * BETA ^ 2)
      let piq := 1 / (1 + Real.exp ((st.mu x.1 - st.mu player) / ciq))
      let gamma := st.sigma player / ciq
      gamma * (st.sigma player ^ 2 / ciq) / ciq * piq * (1 - piq))).sum

/-- The end-of-game apply step for `sigma`:
`sigma[player] *= math.sqrt(max(1 - delta[player], 0.0001))`. -/
noncomputable def applySigma (sigma delta : ℝ) : ℝ :=
  sigma * Real.sqrt (max (1 - delta) 0.0001)

/-- One game of `wl_bt_ratings`: accumulate `omega`/`delta` from the
pre-game state, then apply both to every participant (lines 30-52). -/
noncomputable def btStep (st : WLState) (g : Game) : WLState :=
  ⟨fun p =>
      match rankOf g p with
      | some prank => st.mu p + btOmega st g p prank
      | none => st.mu p,
    fun p =>
      match rankOf g p with
      | some _ => applySigma (st.sigma p) (btDelta st g p)
      | none => st.sigma p⟩

/-- `c = math.sqrt(sum(sigma[p]**2 + BETA**2 for p in game))` (line 68). -/
noncomputable def plC (st : WLState) (g : Game) : ℝ :=
  Real.sqrt ((g.map (fun x => st.sigma x.1 ^ 2 + BETA ^ 2)).sum)

/-- `Aq[r]`: how many participants share rank `r` (line 69). -/
def Aq (g : Game) (r : ℤ) : ℕ := (ranks g).count r

/-- `sumCq[q] = sum(math.exp(mu[i] / c) for i in game if game[i] >= game[q])`
keyed here by the rank of `q` (line 72). -/
noncomputable def sumCq (st : WLState) (g : Game) (c : ℝ) (qrank : ℤ) : ℝ :=
  ((g.filter (fun x => decide (qrank ≤ x.2))).map (fun x => Real.exp (st.mu x.1 / c))).sum

/-- `omega[player]` of the Plackett-Luce update rule (lines 76-88). -/
noncomputable def plOmega (st : WLState) (g : Game) (player : Player) (prank : ℤ) : ℝ :=
  let c := plC st g
  (g.map (fun x =>
    if prank < x.2 then 0
    else
      let PiCq := Real.exp (st.mu player / c) / sumCq st g c x.2
      let mf := if player = x.1 then 1 - PiCq else 0 - PiCq
      mf * (st.sigma player ^ 2 / (c * (Aq g x.2 : ℝ))))).sum

/-- `delta[player]` of the Plackett-Luce update rule (lines 79, 89-91). -/
noncomputable def plDelta (st : WLState) (g : Game) (player : Player) (prank : ℤ) : ℝ :=
  let c := plC st g
  let gamma := st.sigma player / c
  (g.map (fun x =>
    if prank < x.2 then 0
    else
      let PiCq := Real.exp (st.mu player / c) / sumCq st g c x.2
      gamma * st.sigma player ^ 2 / (c ^ 2 * (Aq g x.2 : ℝ)) * (PiCq * (1 - PiCq)))).sum

/-- The first element of `Counter(game.values()).most_common()`: the rank
value with the greatest multiplicity, ties in multiplicity broken by first
encounter order; `none` only for an empty game, where the source raises
`IndexError`. -/
def mostCommonRank (g : Game) : Option ℤ :=
  ((ranks g).foldl
    (fun best r =>
      match best with
      | none => some (r, (ranks g).count r)
      | some (br, bc) =>
        if bc < (ranks g).count r then some (r, (ranks g).count r) else some (br, bc))
    none).map (fun e => e.1)

/-- The condition of `if Aq.most_common()[0][0] != 1: print("Found tied
ranks")` (wl_ranking.py lines 70-71). -/
def foundTiedRanks (g : Game) : Bool := mostCommonRank g != some 1

/-- One game of `wl_pl_ratings` (lines 67-94); `none` models the
`IndexError` that `Aq.most_common()[0]` raises on an empty game record. -/
noncomputable def plGameStep (st : WLState) (g : Game) : Option WLState :=
  if g = [] then none
  else some
    ⟨fun p =>
        match rankOf g p with
        | some prank => st.mu p + plOmega st g p prank
        | none => st.mu p,
      fun p =>
        match rankOf g p with
        | some prank => applySigma (st.sigma p) (plDelta st g p prank)
        | none => st.sigma p⟩

/-- The returned rating table
`{player: Rating(mu[player], sigma[player]) for player in players}`. -/
noncomputable def wlTable (games : List Game) (st : WLState) : Player → Option Rating :=
  fun p => if p ∈ wlPlayers games then some ⟨st.mu p, st.sigma p⟩ else none

/-- `wl_bt_ratings(game_results, last_ratings)` (wl_ranking.py lines 24-59).
`none` models the `NameError`: with no games the loop never binds `gnum`,
which line 55 then references. -/
noncomputable def wl_bt_ratings (games : List Game) (last : Player → Option Rating) :
    Option (Player → Option Rating) :=
  match games with
  | [] => none
  | _ :: _ => some (wlTable games (games.foldl btStep (wlInit last)))

/-- `wl_pl_ratings(game_results, last_ratings)` (wl_ranking.py lines 61-101);
`none` models both the empty-corpus `NameError` and a per-game `IndexError`. -/
noncomputable def wl_pl_ratings (games : List Game) (last : Player → Option Rating) :
    Option (Player → Option Rating) :=
  match games with
  | [] => none
  | _ :: _ => (games.foldlM plGameStep (wlInit last)).map (wlTable games)

/-- All sigmas of a (possibly failed) returned rating table are positive. -/
def sigmasPos (t : Option (Player → Option Rating)) : Prop :=
  ∀ f, t = some f → ∀ p r, f p = some r → 0 < r.sigma

/-! ## Helper lemmas -/

theorem filter_key_eq_nil {t : Game} {p : Player} (P : Player × ℤ → Bool)
    (hp : p ∉ keys t) : t.filter (fun y => decide (y.1 = p) && P y) = [] := by
  induction t with
  | nil => rfl
  | cons a t ih =>
    simp only [keys, List.map_cons, List.mem_cons] at hp
    push_neg at hp
    rw [List.filter_cons]
    have : (decide (a.1 = p) && P a) = false := by
      simp [Ne.symm hp.1]
    rw [this]
    exact ih (by simpa [keys] using hp.2)

theorem length_filter_key {g : Game} {p : Player} (P : Player × ℤ → Bool)
    (h : (keys g).Nodup) :
    (g.filter (fun y => decide (y.1 = p) && P y)).length
      = if ∃ x ∈ g, x.1 = p ∧ P x = true then 1 else 0 := by
  induction g with
  | nil => simp
  | cons a t ih =>
    simp only [keys, List.map_cons, List.nodup_cons] at h
    rw [List.filter_cons]
    by_cases hap : a.1 = p
    · have hfil : t.filter (fun y => decide (y.1 = p) && P y) = [] := by
        apply filter_key_eq_nil
        rw [← hap]; exact h.1
      by_cases hPa : P a = true
      · simp [hap, hPa, hfil]
      · have hno : ¬∃ x ∈ a :: t, x.1 = p ∧ P x = true := by
          rintro ⟨x, hx, hxp, hxP⟩
          rcases List.mem_cons.mp hx with rfl | hx
          · exact hPa hxP
          · have : x ∈ t.filter (fun y => decide (y.1 = p) && P y) :=
              List.mem_filter.mpr ⟨hx, by simp [hxp, hxP]⟩
            simp [hfil] at this
        simp only [hPa, hfil, Bool.and_eq_true, decide_eq_true_eq, if_neg hno]
        simp [hPa, hfil]
    · have hcond : (decide (a.1 = p) && P a) = false := by simp [hap]
      have hiff : (∃ x ∈ a :: t, x.1 = p ∧ P x = true) ↔ ∃ x ∈ t, x.1 = p ∧ P x = true := by
        constructor
        · rintro ⟨x, hx, hxp, hxP⟩
          rcases List.mem_cons.mp hx with rfl | hx
          · exact absurd hxp hap
          · exact ⟨x, hx, hxp, hxP⟩
        · rintro ⟨x, hx, hxp, hxP⟩
          exact ⟨x, List.mem_cons_of_mem _ hx, hxp, hxP⟩
      rw [hcond]
      simp only [Bool.false_eq_true, if_false, hiff]
      exact ih (by simpa [keys] using h.2)

/-- C2: the win credit `w[p]` equals the number of games in which `p`'s
recorded rank is strictly smaller than the maximum rank recorded in that
game, so participants tied for a game's worst place get no win unit from it.
Hypotheses: games are dicts (distinct keys) and non-empty (Python's `max`
raises on an empty dict). -/
theorem c2_win_credit_counts_games (rankings : List Game) (p : Player)
    (hnd : ∀ g ∈ rankings, (keys g).Nodup) (hne : ∀ g ∈ rankings, g ≠ []) :
    ws rankings p
      = rankings.countP (fun g => decide (∃ x ∈ g, x.1 = p ∧ x.2 < maxRank g)) := by
  induction rankings with
  | nil => rfl
  | cons g t ih =>
    have hg := hnd g (List.mem_cons_self g t)
    rw [ws, List.map_cons, List.sum_cons, List.countP_cons]
    have heq : (g.filter (fun x => decide (x.1 = p ∧ x.2 < maxRank g))).length
        = if ∃ x ∈ g, x.1 = p ∧ x.2 < maxRank g then 1 else 0 := by
      have : (fun x : Player × ℤ => decide (x.1 = p ∧ x.2 < maxRank g))
          = fun x => decide (x.1 = p) && decide (x.2 < maxRank g) := by
        funext x; simp [Bool.decide_and]
      rw [this, length_filter_key (fun x => decide (x.2 < maxRank g)) hg]
      first
      | rfl
      | simp only [decide_eq_true_eq]
    rw [heq, ← ws,
      ih (fun g' hg' => hnd g' (List.mem_cons_of_mem _ hg'))
        (fun g' hg' => hne g' (List.mem_cons_of_mem _ hg'))]
    by_cases hex : ∃ x ∈ g, x.1 = p ∧ x.2 < maxRank g
    · simp [hex, Nat.add_comm]
    · simp [hex]

/-- Witness for C2 on a concrete corpus: three games, the third with both
players tied at the worst place. -/
theorem c2_witness :
    ws [[(0, 1), (1, 2)], [(1, 1), (0, 2)], [(0, 2), (1, 2)]] 0
      = List.countP (fun g => decide (∃ x ∈ g, x.1 = 0 ∧ x.2 < maxRank g))
          [[(0, 1), (1, 2)], [(1, 1), (0, 2)], [(0, 2), (1, 2)]] :=
  c2_win_credit_counts_games _ 0 (by decide) (by decide)

theorem foldl_max_spec (t : List ℤ) (a : ℤ) :
    (t.foldl max a = a ∨ t.foldl max a ∈ t) ∧ a ≤ t.foldl max a ∧ ∀ b ∈ t, b ≤ t.foldl max a := by
  induction t generalizing a with
  | nil => simp
  | cons c t ih =>
    simp only [List.foldl_cons]
    obtain ⟨h1, h2, h3⟩ := ih (max a c)
    refine ⟨?_, ?_, ?_⟩
    · rcases h1 with h | h
      · rcases max_choice a c with hm | hm
        · left; rw [h, hm]
        · right; rw [h, hm]; exact List.mem_cons_self _ _
      · exact Or.inr (List.mem_cons_of_mem _ h)
    · exact le_trans (le_max_left a c) h2
    · intro b hb
      rcases List.mem_cons.mp hb with rfl | hb
      · exact le_trans (le_max_right a b) h2
      · exact h3 b hb

theorem maxRank_spec {g : Game} (h : g ≠ []) :
    maxRank g ∈ ranks g ∧ ∀ b ∈ ranks g, b ≤ maxRank g := by
  obtain ⟨x, t, rfl⟩ : ∃ x t, g = x :: t := by
    cases g with
    | nil => exact absurd rfl h
    | cons x t => exact ⟨x, t, rfl⟩
  have hdef : maxRank (x :: t) = (t.map (fun z => z.2)).foldl max x.2 := rfl
  obtain ⟨h1, h2, h3⟩ := foldl_max_spec (t.map (fun z => z.2)) x.2
  constructor
  · rcases h1 with hc | hc
    · rw [hdef, hc]; simp [ranks]
    · rw [hdef]
      simp only [ranks, List.map_cons]
      exact List.mem_cons_of_mem _ (by simpa [ranks] using hc)
  · intro b hb
    rw [hdef]
    simp only [ranks, List.map_cons, List.mem_cons] at hb
    rcases hb with rfl | hb
    · exact h2
    · exact h3 b (by simpa [ranks] using hb)

theorem sorted_le_getLast :
    ∀ {l : List ℤ} (h : l ≠ []), l.Sorted (fun a b => a ≤ b) → ∀ b ∈ l, b ≤ l.getLast h := by
  intro l
  induction l with
  | nil => intro h; exact absurd rfl h
  | cons a t ih =>
    intro h hs b hb
    have hst := List.sorted_cons.mp hs
    rcases List.mem_cons.mp hb with rfl | hb
    · cases t with
      | nil => simp [List.getLast]
      | cons c t' =>
        rw [List.getLast_cons (by simp)]
        exact hst.1 _ (List.getLast_mem (by simp))
    · have hne : t ≠ [] := List.ne_nil_of_mem hb
      rw [List.getLast_cons hne]
      exact ih hne hst.2 b hb

theorem sortedRanks_perm (g : Game) : (sortedRanks g).Perm (ranks g) :=
  List.perm_insertionSort _ _

theorem sortedRanks_sorted (g : Game) : (sortedRanks g).Sorted (fun a b => a ≤ b) :=
  List.sorted_insertionSort _ _

theorem dropLast_map_sum (f : ℤ → ℚ) {l : List ℤ} (h : l ≠ []) :
    (l.dropLast.map f).sum = (l.map f).sum - f (l.getLast h) := by
  have h2 : l.map f = l.dropLast.map f ++ [f (l.getLast h)] := by
    conv_lhs => rw [← List.dropLast_append_getLast h]
    simp
  rw [h2, List.sum_append]
  simp

theorem sortedRanks_ne_nil {g : Game} (h : g ≠ []) : sortedRanks g ≠ [] := by
  intro hc
  have hperm := sortedRanks_perm g
  rw [hc] at hperm
  have : ranks g = [] := hperm.symm.eq_nil
  apply h
  cases g with
  | nil => rfl
  | cons x t => simp [ranks] at this

theorem getLast_sortedRanks_eq_maxRank {g : Game} (h : g ≠ []) :
    (sortedRanks g).getLast (sortedRanks_ne_nil h) = maxRank g := by
  apply le_antisymm
  · exact (maxRank_spec h).2 _
      ((sortedRanks_perm g).mem_iff.mp (List.getLast_mem (sortedRanks_ne_nil h)))
  · exact sorted_le_getLast (sortedRanks_ne_nil h) (sortedRanks_sorted g) _
      ((sortedRanks_perm g).mem_iff.mpr (maxRank_spec h).1)

theorem gameDenom_eq_sub (gammas : Player → ℚ) (g : Game) (p : Player) (h : g ≠ []) :
    gameDenom gammas g p
      = ((ranks g).map (placeTerm gammas g p)).sum - placeTerm gammas g p (maxRank g) := by
  rw [gameDenom, dropLast_map_sum (placeTerm gammas g p) (sortedRanks_ne_nil h),
    getLast_sortedRanks_eq_maxRank h]
  congr 1
  exact ((sortedRanks_perm g).map _).sum_eq

/-- C1 counterexample: on the single game `{0: 1, 1: 2, 2: 3}` with uniform
gammas `1/3`, the source's iteration gives player 0 the new gamma `1`
(its denominator has a non-zero term only at places not exceeding the
player's own rank), while the update rule exactly as the claim words it
gives `2/5`. -/
theorem c1_counterexample :
    plStep [[(0, 1), (1, 2), (2, 3)]] (fun _ => (1 : ℚ) / 3) 0
      ≠ plStepSpec [[(0, 1), (1, 2), (2, 3)]] (fun _ => (1 : ℚ) / 3) 0 := by
  norm_num [plStep, plStepSpec, ws, denoms, denomsSpec, gameDenom, placeTerm, suffixGammas,
    sortedRanks, ranks, keys, maxRank, rankOf, List.insertionSort, List.orderedInsert,
    List.lookup, List.filter, List.dedup]

/-- C1 (amended): each iteration computes every player's new gamma from the
previous iteration's gamma vector as `w[p]` divided by a denominator that
sums, over every game and over every entry of the game's ascending-sorted
rank multiset with one copy of the largest rank removed (duplicate ranks
counted with multiplicity, not once per distinct value), the term
`0` when `p`'s rank in that game (`-1` when absent) is strictly below that
place, else the reciprocal of the summed previous gammas of the
participants whose rank is at least that place. -/
theorem c1_amended_iteration (rankings : List Game) (gammas : Player → ℚ) (p : Player)
    (h : ∀ g ∈ rankings, g ≠ []) :
    plStep rankings gammas p
      = (ws rankings p : ℚ) /
        (rankings.map (fun g =>
          ((ranks g).map (placeTerm gammas g p)).sum - placeTerm gammas g p (maxRank g))).sum := by
  simp only [plStep, denoms]
  congr 2
  exact List.map_congr_left (fun g hg => gameDenom_eq_sub gammas g p (h g hg))

/-- Witness for the amended C1 on a concrete game list with a tied rank. -/
theorem c1_amended_witness :
    plStep [[(0, 1), (1, 2), (2, 2)], [(1, 1), (0, 2)]] (fun _ => (1 : ℚ) / 3) 1
      = (ws [[(0, 1), (1, 2), (2, 2)], [(1, 1), (0, 2)]] 1 : ℚ) /
        ([[(0, 1), (1, 2), (2, 2)], [(1, 1), (0, 2)]].map (fun g =>
          ((ranks g).map (placeTerm (fun _ => (1 : ℚ) / 3) g 1)).sum
            - placeTerm (fun _ => (1 : ℚ) / 3) g 1 (maxRank g))).sum :=
  c1_amended_iteration _ _ 1 (by decide)

theorem wrongPair_eq_indecisiveOrDisagrees {α : Type} (ratings : Player → Option α)
    (ord : α → α → Bool) (pr : (Player × ℤ) × (Player × ℤ)) :
    wrongPair ratings ord pr = indecisiveOrDisagrees ratings ord pr := by
  rw [wrongPair, indecisiveOrDisagrees]
  cases hp : ratings pr.1.1 with
  | none => rfl
  | some rp =>
    cases ho : ratings pr.2.1 with
    | none => rfl
    | some ro =>
      cases hbo : ord rp ro <;> cases hwo : ord ro rp <;>
        cases htr : decide (pr.1.2 < pr.2.2) <;> simp [hbo, hwo, htr]

/-- C4: over a held-out game set, `ratings_order_error` counts an evaluated
ordered co-participant pair as wrong exactly when the decisive-order
predicate answers the same in both directions or disagrees with the true
finish order; it returns `num_wrong / num_predictions`; it is exactly `0`
whenever every evaluated pair is scored, decisive and agrees with the true
outcome; and a scored pair with equal ratings (a decisive tie) is always
counted wrong. -/
theorem c4_order_error_metric {α : Type} (games : List Game) (ratings : Player → Option α)
    (ord : α → α → Bool) :
    ((evalPairs games).countP (wrongPair ratings ord)
        = (evalPairs games).countP (indecisiveOrDisagrees ratings ord))
    ∧ ((evalPairs games).countP (fun pr => !missedPair ratings pr) ≠ 0 →
        ratings_order_error games ratings ord none
          = some (((evalPairs games).countP (wrongPair ratings ord) : ℚ)
              / ((evalPairs games).countP (fun pr => !missedPair ratings pr) : ℚ)))
    ∧ ((∀ pr ∈ evalPairs games, ∃ rp ro, ratings pr.1.1 = some rp ∧ ratings pr.2.1 = some ro
          ∧ ord rp ro ≠ ord ro rp ∧ (ord rp ro = true ↔ pr.1.2 < pr.2.2)) →
        evalPairs games ≠ [] →
        ratings_order_error games ratings ord none = some 0)
    ∧ (∀ pr ∈ evalPairs games, ∀ r, ratings pr.1.1 = some r → ratings pr.2.1 = some r →
        wrongPair ratings ord pr = true) := by
  have hfilter : (evalPairs games).filter (fun pr => !skipPair none pr) = evalPairs games := by
    have : (fun pr : (Player × ℤ) × (Player × ℤ) => !skipPair none pr) = fun _ => true := by
      funext pr; rw [skipPair]; rfl
    rw [this, List.filter_true]
  refine ⟨List.countP_congr (fun pr _ => by rw [wrongPair_eq_indecisiveOrDisagrees]), ?_, ?_, ?_⟩
  · intro hne
    rw [ratings_order_error]
    simp only [hfilter]
    rw [if_neg hne]
  · intro hall hnil
    have hwrong : (evalPairs games).countP (wrongPair ratings ord) = 0 := by
      rw [List.countP_eq_zero]
      intro pr hpr
      obtain ⟨rp, ro, h1, h2, hdec, hagr⟩ := hall pr hpr
      rw [wrongPair, h1, h2]
      have hb1 : (ord rp ro == ord ro rp) = false := by
        simp [hdec]
      have hb2 : (ord rp ro != decide (pr.1.2 < pr.2.2)) = false := by
        by_cases htr : pr.1.2 < pr.2.2
        · simp [htr, hagr.mpr htr]
        · have : ord rp ro = false := by
            cases hoo : ord rp ro
            · rfl
            · exact absurd (hagr.mp hoo) htr
          simp [htr, this]
      simp [hb1, hb2]
    have hpred : (evalPairs games).countP (fun pr => !missedPair ratings pr)
        = (evalPairs games).length := by
      rw [List.countP_eq_length]
      intro pr hpr
      obtain ⟨rp, ro, h1, h2, -, -⟩ := hall pr hpr
      simp [missedPair, h1, h2]
    have hlen : (evalPairs games).length ≠ 0 :=
      fun hc => hnil (List.length_eq_zero.mp hc)
    rw [ratings_order_error]
    simp only [hfilter]
    rw [if_neg (by rw [hpred]; exact hlen), hwrong]
    norm_num
  · intro pr _ r h1 h2
    rw [wrongPair, h1, h2]
    simp

/-- Witness for C4: a two-player held-out game whose outcome the rating
table orders correctly gives order error exactly 0. -/
theorem c4_witness :
    ratings_order_error [[(0, 1), (1, 2)]]
      (fun p => if p = 0 then some ((2 : ℚ)) else if p = 1 then some 1 else none)
      pl_order none = some 0 := by
  refine (c4_order_error_metric [[(0, 1), (1, 2)]] _ pl_order).2.2.1 ?_ (by decide)
  intro pr hpr
  have : pr = ((0, 1), (1, 2)) := by
    simpa [evalPairs, gameranks, listPairs, List.insertionSort, List.orderedInsert] using hpr
  subst this
  exact ⟨2, 1, rfl, rfl, by decide, by constructor <;> intro <;> decide⟩

/-- C5 counterexample: on the held-out game `{0: 1, 1: 2}`, the order-error
evaluator raises `ZeroDivisionError` with an empty rating table (every pair
missed, so `num_predictions` is 0), and the cross-validator's
`check_predictions` raises `KeyError` when a participant is absent from the
rating table, instead of returning a well-defined partial answer. -/
theorem c5_counterexample :
    ratings_order_error [[(0, 1), (1, 2)]] (fun _ => (none : Option ℚ)) pl_order none = none
    ∧ check_predictions [[(0, 1), (1, 2)]]
        (fun p => if p = 0 then some (1 : ℚ) else none) rank_order = none := by
  constructor
  · rfl
  · rfl

theorem foldlM_pairs_none (ratings : Player → Option ℚ)
    (l : List ((Player × ℤ) × (Player × ℤ)))
    (hex : ∃ pr ∈ l, missedPair ratings pr = true) (acc : ℕ × ℕ) :
    l.foldlM
      (fun (acc2 : ℕ × ℕ) pr => do
        let better ← rank_order ratings pr.1.1 pr.2.1
        let worse ← rank_order ratings pr.2.1 pr.1.1
        pure (acc2.1 + (if (better == worse) || (better != decide (pr.1.2 < pr.2.2)) then 1 else 0),
          acc2.2 + 1))
      acc = (none : Option (ℕ × ℕ)) := by
  induction l generalizing acc with
  | nil =>
    obtain ⟨pr, hpr, -⟩ := hex
    simp at hpr
  | cons x t ih =>
    rw [List.foldlM_cons]
    obtain ⟨pr, hpr, hmiss⟩ := hex
    rcases List.mem_cons.mp hpr with rfl | hpr
    · have h : rank_order ratings pr.1.1 pr.2.1 = none := by
        rw [missedPair, Bool.or_eq_true] at hmiss
        rw [rank_order]
        rcases hmiss with h | h
        · rw [Option.isNone_iff_eq_none.mp h]
        · rw [Option.isNone_iff_eq_none.mp h]
          cases ratings pr.1.1 <;> rfl
      rw [h]
      rfl
    · cases hstep : rank_order ratings x.1.1 x.2.1 with
      | none => rfl
      | some b =>
        cases hstep2 : rank_order ratings x.2.1 x.1.1 with
        | none => rfl
        | some b2 => exact ih ⟨pr, hpr, hmiss⟩ _

theorem foldlM_games_none (ratings : Player → Option ℚ) (test : List Game)
    (hex : ∃ pr ∈ evalPairs test, missedPair ratings pr = true) (acc : ℕ × ℕ) :
    test.foldlM
      (fun (acc : ℕ × ℕ) g =>
        (listPairs (gameranks g)).foldlM
          (fun (acc2 : ℕ × ℕ) pr => do
            let better ← rank_order ratings pr.1.1 pr.2.1
            let worse ← rank_order ratings pr.2.1 pr.1.1
            pure (acc2.1 + (if (better == worse) || (better != decide (pr.1.2 < pr.2.2)) then 1 else 0),
              acc2.2 + 1))
          acc)
      acc = (none : Option (ℕ × ℕ)) := by
  induction test generalizing acc with
  | nil =>
    obtain ⟨pr, hpr, -⟩ := hex
    simp [evalPairs] at hpr
  | cons g t ih =>
    rw [List.foldlM_cons]
    obtain ⟨pr, hpr, hmiss⟩ := hex
    rw [evalPairs, List.flatMap_cons, List.mem_append] at hpr
    rcases hpr with hpr | hpr
    · have hinner := foldlM_pairs_none ratings (listPairs (gameranks g)) ⟨pr, hpr, hmiss⟩ acc
      rw [hinner]
      rfl
    · cases hstep : (listPairs (gameranks g)).foldlM
          (fun (acc2 : ℕ × ℕ) pr => do
            let better ← rank_order ratings pr.1.1 pr.2.1
            let worse ← rank_order ratings pr.2.1 pr.1.1
            pure (acc2.1 + (if (better == worse) || (better != decide (pr.1.2 < pr.2.2)) then 1 else 0),
              acc2.2 + 1))
          acc with
      | none => rfl
      | some acc2 =>
        exact ih ⟨pr, by rwa [evalPairs], hmiss⟩ acc2

/-- C5 (amended): `ratings_rmse` and `ratings_order_error` exclude every
pair with a missing rating from the denominator, counting it in the missed
diagnostic, and return normally whenever at least one pair is scored (when
no pair at all is scored the `num_wrong / num_predictions` division raises
`ZeroDivisionError`); the cross-validator's `check_predictions` performs no
missing-rating handling and raises `KeyError` as soon as an evaluated pair
has a participant absent from the rating table. -/
theorem c5_amended_evaluator_behaviour {α : Type} (games : List Game)
    (ratings : Player → Option α) (ord : α → α → Bool) (winp : α → α → ℝ) :
    ((evalPairs games).countP (missedPair ratings)
        + (evalPairs games).countP (fun pr => !missedPair ratings pr)
      = (evalPairs games).length)
    ∧ ((evalPairs games).countP (fun pr => !missedPair ratings pr) ≠ 0 →
        (∃ q, ratings_order_error games ratings ord none = some q)
        ∧ ∃ x, ratings_rmse games ratings winp none = some x)
    ∧ (∀ test : List Game, ∀ rt : Player → Option ℚ,
        (∃ pr ∈ evalPairs test, missedPair rt pr = true) →
        check_predictions test rt rank_order = none) := by
  have hfilter : ∀ (l : List ((Player × ℤ) × (Player × ℤ))),
      l.filter (fun pr => !skipPair none pr) = l := by
    intro l
    have : (fun pr : (Player × ℤ) × (Player × ℤ) => !skipPair none pr) = fun _ => true := by
      funext pr; rw [skipPair]; rfl
    rw [this, List.filter_true]
  refine ⟨?_, ?_, ?_⟩
  · rw [List.length_eq_countP_add_countP (missedPair ratings)]
    congr 1
    apply List.countP_congr
    intro pr _
    simp
  · intro hne
    constructor
    · exact ⟨_, by rw [ratings_order_error]; simp only [hfilter]; rw [if_neg hne]⟩
    · exact ⟨_, by rw [ratings_rmse]; simp only [hfilter]; rw [if_neg hne]⟩
  · intro test rt hex
    rw [check_predictions, foldlM_games_none rt test hex ((0, 0) : ℕ × ℕ)]
    rfl

/-- Witness for the amended C5: with one scored pair and one absent player,
the evaluator returns a partial answer and the missed/scored counts
partition the pairs. -/
theorem c5_amended_witness :
    (∃ q, ratings_order_error [[(0, 1), (1, 2)]]
        (fun p => if p ≤ 1 then some ((p : ℚ)) else none) pl_order none = some q)
    ∧ check_predictions [[(0, 1), (1, 2), (2, 3)]]
        (fun p => if p = 0 then some (1 : ℚ) else none) rank_order = none := by
  constructor
  · exact ((c5_amended_evaluator_behaviour [[(0, 1), (1, 2)]]
      (fun p => if p ≤ 1 then some ((p : ℚ)) else none) pl_order
      (fun _ _ => 0)).2.1 (by decide)).1
  · exact (c5_amended_evaluator_behaviour ([] : List Game)
      (fun _ => (none : Option ℚ)) pl_order (fun _ _ => 0)).2.2
      [[(0, 1), (1, 2), (2, 3)]] (fun p => if p = 0 then some (1 : ℚ) else none)
      (by decide)

theorem ws_perm {R R' : List Game} (h : R.Perm R') (p : Player) : ws R' p = ws R p :=
  (List.Perm.sum_eq (h.map _)).symm

theorem denoms_perm {R R' : List Game} (h : R.Perm R') (gammas : Player → ℚ) (p : Player) :
    denoms R' gammas p = denoms R gammas p :=
  (List.Perm.sum_eq (h.map _)).symm

theorem plPlayers_perm {R R' : List Game} (h : R.Perm R') :
    (plPlayers R').Perm (plPlayers R) := by
  unfold plPlayers
  apply List.Perm.dedup
  rw [List.flatMap_def, List.flatMap_def]
  exact ((h.map keys).flatten).symm

theorem plStep_perm {R R' : List Game} (h : R.Perm R') (gammas : Player → ℚ) :
    plStep R' gammas = plStep R gammas := by
  funext p
  rw [plStep, plStep, ws_perm h, denoms_perm h]

theorem plInit_perm {R R' : List Game} (h : R.Perm R') : plInit R' = plInit R := by
  funext p
  rw [plInit, plInit, List.Perm.length_eq (plPlayers_perm h)]

theorem gdiffSq_perm {R R' : List Game} (h : R.Perm R') (g g' : Player → ℚ) :
    gdiffSq R' g g' = gdiffSq R g g' :=
  List.Perm.sum_eq ((plPlayers_perm h).map _)

theorem plRunAux_perm {R R' : List Game} (h : R.Perm R') (tolSq : ℚ) :
    ∀ (fuel : ℕ) (gammas : Player → ℚ) (dSq : ℚ),
      plRunAux R' tolSq fuel gammas dSq = plRunAux R tolSq fuel gammas dSq := by
  intro fuel
  induction fuel with
  | zero =>
    intro gammas dSq
    rw [plRunAux, plRunAux]
  | succ n ih =>
    intro gammas dSq
    rw [plRunAux, plRunAux]
    by_cases hd : dSq ≤ tolSq
    · rw [if_pos hd, if_pos hd]
    · rw [if_neg hd, if_neg hd]
      rw [plStep_perm h, gdiffSq_perm h, ih]

theorem lookup_renameGame {pi : Player → Player} (hinj : Function.Injective pi)
    (g : Game) (p : Player) :
    List.lookup (pi p) (renameGame pi g) = List.lookup p g := by
  induction g with
  | nil => rfl
  | cons x t ih =>
    rcases x with ⟨k, r⟩
    by_cases hpk : p = k
    · subst hpk
      simp [renameGame, List.lookup]
    · have h1 : (pi p == pi k) = false := beq_eq_false_iff_ne.mpr (fun hc => hpk (hinj hc))
      have h2 : (p == k) = false := beq_eq_false_iff_ne.mpr hpk
      simpa [renameGame, List.lookup, h1, h2] using ih

theorem ranks_renameGame (pi : Player → Player) (g : Game) :
    ranks (renameGame pi g) = ranks g := by
  simp [ranks, renameGame, List.map_map, Function.comp_def]

theorem maxRank_renameGame (pi : Player → Player) (g : Game) :
    maxRank (renameGame pi g) = maxRank g := by
  rw [maxRank, maxRank, ranks_renameGame]

theorem keys_renameGame (pi : Player → Player) (g : Game) :
    keys (renameGame pi g) = (keys g).map pi := by
  simp [keys, renameGame, List.map_map, Function.comp_def]

theorem sortedRanks_renameGame (pi : Player → Player) (g : Game) :
    sortedRanks (renameGame pi g) = sortedRanks g := by
  rw [sortedRanks, sortedRanks, ranks_renameGame]

theorem ws_renameGames {pi : Player → Player} (hinj : Function.Injective pi)
    (R : List Game) (p : Player) :
    ws (renameGames pi R) (pi p) = ws R p := by
  rw [ws, ws, renameGames, List.map_map]
  congr 1
  apply List.map_congr_left
  intro g hg
  simp only [Function.comp_apply]
  rw [maxRank_renameGame, renameGame, List.filter_map, List.length_map]
  congr 1
  apply List.filter_congr
  intro x hx
  simp only [Function.comp_apply]
  apply decide_eq_decide.mpr
  constructor
  · rintro ⟨h1, h2⟩
    exact ⟨hinj h1, h2⟩
  · rintro ⟨h1, h2⟩
    exact ⟨congrArg pi h1, h2⟩

theorem suffixGammas_renameGame (pi : Player → Player) (g : Game) (place : ℤ)
    (gam G : Player → ℚ) (hG : ∀ q, G (pi q) = gam q) :
    suffixGammas G (renameGame pi g) place = suffixGammas gam g place := by
  rw [suffixGammas, suffixGammas, renameGame, List.filter_map, List.map_map]
  have hfil : g.filter ((fun x : Player × ℤ => decide (place ≤ x.2)) ∘ fun x => (pi x.1, x.2))
      = g.filter (fun x => decide (place ≤ x.2)) := by
    apply List.filter_congr
    intro x hx
    rfl
  rw [hfil]
  congr 1
  apply List.map_congr_left
  intro x hx
  simp only [Function.comp_apply]
  exact hG x.1

theorem placeTerm_renameGame {pi : Player → Player} (hinj : Function.Injective pi)
    (g : Game) (p : Player) (place : ℤ) (gam G : Player → ℚ) (hG : ∀ q, G (pi q) = gam q) :
    placeTerm G (renameGame pi g) (pi p) place = placeTerm gam g p place := by
  rw [placeTerm, placeTerm, rankOf, rankOf, lookup_renameGame hinj,
    suffixGammas_renameGame pi g place gam G hG]

theorem gameDenom_renameGame {pi : Player → Player} (hinj : Function.Injective pi)
    (g : Game) (p : Player) (gam G : Player → ℚ) (hG : ∀ q, G (pi q) = gam q) :
    gameDenom G (renameGame pi g) (pi p) = gameDenom gam g p := by
  rw [gameDenom, gameDenom, sortedRanks_renameGame]
  congr 1
  apply List.map_congr_left
  intro place hplace
  exact placeTerm_renameGame hinj g p place gam G hG

theorem denoms_renameGames {pi : Player → Player} (hinj : Function.Injective pi)
    (R : List Game) (p : Player) (gam G : Player → ℚ) (hG : ∀ q, G (pi q) = gam q) :
    denoms (renameGames pi R) G (pi p) = denoms R gam p := by
  rw [denoms, denoms, renameGames, List.map_map]
  congr 1
  apply List.map_congr_left
  intro g hg
  simp only [Function.comp_apply]
  exact gameDenom_renameGame hinj g p gam G hG

theorem plStep_renameGames {pi : Player → Player} (hinj : Function.Injective pi)
    (R : List Game) (gam G : Player → ℚ) (hG : ∀ q, G (pi q) = gam q) (p : Player) :
    plStep (renameGames pi R) G (pi p) = plStep R gam p := by
  rw [plStep, plStep, ws_renameGames hinj, denoms_renameGames hinj R p gam G hG]

theorem plPlayers_renameGames {pi : Player → Player} (hinj : Function.Injective pi)
    (R : List Game) :
    plPlayers (renameGames pi R) = (plPlayers R).map pi := by
  rw [plPlayers, plPlayers, renameGames, List.flatMap_map]
  have : (fun g => keys (renameGame pi g)) = fun g => (keys g).map pi :=
    funext (keys_renameGame pi)
  rw [this, ← List.map_flatMap]
  exact List.dedup_map_of_injective hinj _

theorem plInit_renameGames {pi : Player → Player} (hinj : Function.Injective pi)
    (R : List Game) (q : Player) :
    plInit (renameGames pi R) (pi q) = plInit R q := by
  rw [plInit, plInit, plPlayers_renameGames hinj, List.length_map]

theorem gdiffSq_renameGames {pi : Player → Player} (hinj : Function.Injective pi)
    (R : List Game) (g g' G G' : Player → ℚ)
    (h1 : ∀ q, G (pi q) = g q) (h2 : ∀ q, G' (pi q) = g' q) :
    gdiffSq (renameGames pi R) G G' = gdiffSq R g g' := by
  rw [gdiffSq, gdiffSq, plPlayers_renameGames hinj, List.map_map]
  congr 1
  apply List.map_congr_left
  intro p hp
  simp only [Function.comp_apply, h1, h2]

theorem plRunAux_renameGames {pi : Player → Player} (hinj : Function.Injective pi)
    (R : List Game) (tolSq : ℚ) :
    ∀ (fuel : ℕ) (gam G : Player → ℚ) (dSq : ℚ), (∀ q, G (pi q) = gam q) → ∀ p,
      Option.map (fun f => f (pi p)) (plRunAux (renameGames pi R) tolSq fuel G dSq)
        = Option.map (fun f => f p) (plRunAux R tolSq fuel gam dSq) := by
  intro fuel
  induction fuel with
  | zero =>
    intro gam G dSq hG p
    rw [plRunAux, plRunAux]
    by_cases hd : dSq ≤ tolSq
    · rw [if_pos hd, if_pos hd]
      simp [hG p]
    · rw [if_neg hd, if_neg hd]
      rfl
  | succ n ih =>
    intro gam G dSq hG p
    rw [plRunAux, plRunAux]
    by_cases hd : dSq ≤ tolSq
    · rw [if_pos hd, if_pos hd]
      simp [hG p]
    · rw [if_neg hd, if_neg hd]
      have hstep : ∀ q, plStep (renameGames pi R) G (pi q) = plStep R gam q :=
        plStep_renameGames hinj R gam G hG
      rw [gdiffSq_renameGames hinj R gam (plStep R gam) G (plStep (renameGames pi R) G) hG hstep]
      exact ih (plStep R gam) (plStep (renameGames pi R) G) _ hstep p

/-- C7: the PL estimator is order-independent and relabeling-invariant —
running `pl_python` on any permutation of the game list gives the same
result (the same gamma for every player, and the same convergence
behaviour), and renaming the players by any injection returns the
correspondingly renamed gammas. -/
theorem c7_pl_order_and_relabel_invariance (R R' : List Game) (tolSq : ℚ) (fuel : ℕ)
    (pi : Player → Player) (p : Player)
    (hperm : R.Perm R') (hinj : Function.Injective pi) :
    pl_python R' tolSq fuel = pl_python R tolSq fuel
    ∧ Option.map (fun f => f (pi p)) (pl_python (renameGames pi R) tolSq fuel)
        = Option.map (fun f => f p) (pl_python R tolSq fuel) := by
  constructor
  · rw [pl_python, pl_python, plInit_perm hperm, plRunAux_perm hperm]
  · rw [pl_python, pl_python]
    exact plRunAux_renameGames hinj R tolSq fuel (plInit R) (plInit (renameGames pi R)) 100
      (plInit_renameGames hinj R) p

/-- Witness for C7: a concrete two-game corpus, its swap, and the renaming
`n ↦ n + 1`. -/
theorem c7_witness :
    pl_python [[(1, 1), (0, 2)], [(0, 1), (1, 2)]] (1 / 2) 3
        = pl_python [[(0, 1), (1, 2)], [(1, 1), (0, 2)]] (1 / 2) 3
    ∧ Option.map (fun f => f ((fun n => n + 1) 0))
        (pl_python (renameGames (fun n => n + 1) [[(0, 1), (1, 2)], [(1, 1), (0, 2)]]) (1 / 2) 3)
      = Option.map (fun f => f 0) (pl_python [[(0, 1), (1, 2)], [(1, 1), (0, 2)]] (1 / 2) 3) :=
  c7_pl_order_and_relabel_invariance _ _ (1 / 2) 3 (fun n => n + 1) 0 (by decide)
    (fun a b h => by simpa using h)

theorem applySigma_pos {sigma delta : ℝ} (h : 0 < sigma) : 0 < applySigma sigma delta := by
  rw [applySigma]
  apply mul_pos h
  apply Real.sqrt_pos.mpr
  have h1 : (0.0001 : ℝ) ≤ max (1 - delta) 0.0001 := le_max_right _ _
  have h2 : (0 : ℝ) < 0.0001 := by norm_num
  linarith

theorem btStep_sigma_pos (st : WLState) (g : Game) (h : ∀ p, 0 < st.sigma p) :
    ∀ p, 0 < (btStep st g).sigma p := by
  intro p
  cases hr : rankOf g p with
  | none => simpa [btStep, hr] using h p
  | some prank =>
    simp only [btStep, hr]
    exact applySigma_pos (h p)

theorem plGameStep_sigma_pos {st st' : WLState} {g : Game} (h : ∀ p, 0 < st.sigma p)
    (heq : plGameStep st g = some st') : ∀ p, 0 < st'.sigma p := by
  rw [plGameStep] at heq
  by_cases hg : g = []
  · rw [if_pos hg] at heq
    exact absurd heq (by simp)
  · rw [if_neg hg] at heq
    cases heq
    intro p
    cases hr : rankOf g p with
    | none => simpa [hr] using h p
    | some prank =>
      simp only [hr]
      exact applySigma_pos (h p)

theorem foldl_btStep_sigma_pos (games : List Game) (st : WLState) (h : ∀ p, 0 < st.sigma p) :
    ∀ p, 0 < (games.foldl btStep st).sigma p := by
  induction games generalizing st with
  | nil => exact h
  | cons g t ih => exact ih _ (btStep_sigma_pos st g h)

theorem foldlM_plGameStep_sigma_pos (games : List Game) (st st' : WLState)
    (h : ∀ p, 0 < st.sigma p) (heq : games.foldlM plGameStep st = some st') :
    ∀ p, 0 < st'.sigma p := by
  induction games generalizing st with
  | nil =>
    cases heq
    exact h
  | cons g t ih =>
    rw [List.foldlM_cons] at heq
    cases hstep : plGameStep st g with
    | none =>
      rw [hstep] at heq
      simp at heq
    | some st1 =>
      rw [hstep] at heq
      exact ih st1 (plGameStep_sigma_pos h hstep) heq

theorem wlInit_sigma_pos (last : Player → Option Rating)
    (hlast : ∀ p r, last p = some r → 0 < r.sigma) : ∀ p, 0 < (wlInit last).sigma p := by
  intro p
  cases hl : last p with
  | none =>
    simp only [wlInit, hl, Option.getD_none]
    rw [SIGMA, MU]
    norm_num
  | some r => simpa [wlInit, hl] using hlast p r hl

/-- C3: in both WL updaters the per-game `omega`/`delta` accumulators
(computed entirely from the pre-game state) are applied only after the
whole game has been processed, as `mu[p] += omega[p]` and
`sigma[p] *= sqrt(max(1 - delta[p], 0.0001))`; consequently, starting from
the prior `SIGMA = 25/3` — or any table whose sigmas are positive — every
returned sigma is strictly positive after any number of processed games. -/
theorem c3_sigma_stays_positive (games : List Game) (last : Player → Option Rating)
    (hlast : ∀ p r, last p = some r → 0 < r.sigma) :
    (0 : ℝ) < SIGMA
    ∧ (∀ st g p prank, rankOf g p = some prank →
        (btStep st g).mu p = st.mu p + btOmega st g p prank
        ∧ (btStep st g).sigma p = st.sigma p * Real.sqrt (max (1 - btDelta st g p) 0.0001))
    ∧ (∀ st g p prank, g ≠ [] → rankOf g p = some prank →
        ∃ st', plGameStep st g = some st'
          ∧ st'.mu p = st.mu p + plOmega st g p prank
          ∧ st'.sigma p = st.sigma p * Real.sqrt (max (1 - plDelta st g p prank) 0.0001))
    ∧ sigmasPos (wl_bt_ratings games last)
    ∧ sigmasPos (wl_pl_ratings games last) := by
  refine ⟨by rw [SIGMA, MU]; norm_num, ?_, ?_, ?_, ?_⟩
  · intro st g p prank hr
    constructor
    · simp [btStep, hr]
    · simp [btStep, hr, applySigma]
  · intro st g p prank hg hr
    refine ⟨_, by rw [plGameStep, if_neg hg], ?_, ?_⟩
    · simp [hr]
    · simp [hr, applySigma]
  · intro f heq p r hfr
    cases games with
    | nil => exact absurd heq (by rw [wl_bt_ratings]; simp)
    | cons g t =>
      rw [wl_bt_ratings, Option.some_inj] at heq
      subst heq
      rw [wlTable] at hfr
      by_cases hp : p ∈ wlPlayers (g :: t)
      · rw [if_pos hp, Option.some_inj] at hfr
        subst hfr
        exact foldl_btStep_sigma_pos (g :: t) _ (wlInit_sigma_pos last hlast) p
      · rw [if_neg hp] at hfr
        cases hfr
  · intro f heq p r hfr
    cases games with
    | nil => exact absurd heq (by rw [wl_pl_ratings]; simp)
    | cons g t =>
      rw [wl_pl_ratings, Option.map_eq_some'] at heq
      obtain ⟨st', hst', hf⟩ := heq
      subst hf
      rw [wlTable] at hfr
      by_cases hp : p ∈ wlPlayers (g :: t)
      · rw [if_pos hp, Option.some_inj] at hfr
        subst hfr
        exact foldlM_plGameStep_sigma_pos (g :: t) _ st' (wlInit_sigma_pos last hlast) hst' p
      · rw [if_neg hp] at hfr
        cases hfr

/-- Witness for C3 on a concrete one-game corpus from the default prior. -/
theorem c3_witness :
    sigmasPos (wl_bt_ratings [[(0, 1), (1, 2)]] (fun _ => none))
    ∧ sigmasPos (wl_pl_ratings [[(0, 1), (1, 2)]] (fun _ => none)) :=
  ⟨(c3_sigma_stays_positive [[(0, 1), (1, 2)]] (fun _ => none) (fun _ _ h => nomatch h)).2.2.2.1,
   (c3_sigma_stays_positive [[(0, 1), (1, 2)]] (fun _ => none) (fun _ _ h => nomatch h)).2.2.2.2⟩

theorem foldlM_plGameStep_total (games : List Game) (st : WLState)
    (h : ∀ g ∈ games, g ≠ []) : ∃ st', games.foldlM plGameStep st = some st' := by
  induction games generalizing st with
  | nil => exact ⟨st, rfl⟩
  | cons g t ih =>
    rw [List.foldlM_cons]
    have hg := h g (List.mem_cons_self g t)
    rw [plGameStep, if_neg hg]
    exact ih _ (fun g' hg' => h g' (List.mem_cons_of_mem _ hg'))

/-- C9 counterexample: `wl_pl_ratings` on a non-empty game list containing
one empty game record raises (`IndexError` from `Aq.most_common()[0]`)
instead of returning normally. -/
theorem c9_counterexample :
    wl_pl_ratings [[]] (fun _ => none) = none ∧ ([([] : Game)] : List Game) ≠ [] := by
  constructor
  · rfl
  · decide

/-- C9 (amended): on the empty game list both WL updaters raise a
`NameError` (the per-game counter `gnum` is referenced after the loop
without ever being bound); on every non-empty game list `wl_bt_ratings`
returns normally, and `wl_pl_ratings` returns normally provided every game
record has at least one participant (on an empty game record it raises
`IndexError` while picking the most common rank). -/
theorem c9_amended_empty_raises (last : Player → Option Rating) :
    wl_bt_ratings [] last = none
    ∧ wl_pl_ratings [] last = none
    ∧ (∀ games : List Game, games ≠ [] → ∃ t, wl_bt_ratings games last = some t)
    ∧ (∀ games : List Game, games ≠ [] → (∀ g ∈ games, g ≠ []) →
        ∃ t, wl_pl_ratings games last = some t) := by
  refine ⟨rfl, rfl, ?_, ?_⟩
  · intro games hne
    cases games with
    | nil => exact absurd rfl hne
    | cons g t => exact ⟨_, rfl⟩
  · intro games hne hgg
    cases games with
    | nil => exact absurd rfl hne
    | cons g t =>
      obtain ⟨st', hst'⟩ := foldlM_plGameStep_total (g :: t) (wlInit last) hgg
      rw [wl_pl_ratings, hst']
      exact ⟨_, rfl⟩

/-- Witness for the amended C9 at concrete inputs. -/
theorem c9_amended_witness :
    wl_bt_ratings [] (fun _ => none) = none
    ∧ wl_pl_ratings [] (fun _ => none) = none
    ∧ (∃ t, wl_bt_ratings [[(0, 1), (1, 2)]] (fun _ => none) = some t)
    ∧ (∃ t, wl_pl_ratings [[(0, 1), (1, 2)]] (fun _ => none) = some t) := by
  obtain ⟨h1, h2, h3, h4⟩ := c9_amended_empty_raises (fun _ => none)
  exact ⟨h1, h2, h3 _ (by decide), h4 _ (by decide) (by decide)⟩

theorem wlPlayers_mem (games : List Game) (p : Player) :
    p ∈ wlPlayers games ↔ ∃ g ∈ games, ∃ x ∈ g, x.1 = p := by
  rw [wlPlayers, List.mem_dedup, List.mem_flatMap]
  constructor
  · rintro ⟨g, hg, hp⟩
    rw [keys] at hp
    obtain ⟨x, hx, rfl⟩ := List.mem_map.mp hp
    exact ⟨g, hg, x, hx, rfl⟩
  · rintro ⟨g, hg, x, hx, rfl⟩
    exact ⟨g, hg, List.mem_map_of_mem _ hx⟩

/-- C10: the key set of the rating table returned by either WL updater is
exactly the set of players appearing in at least one input game; a player
present only in the caller's `last_ratings` (which both updaters read only
through `get`, never write) is absent from the result. -/
theorem c10_result_keys (games : List Game) (last : Player → Option Rating)
    (f : Player → Option Rating)
    (heq : wl_bt_ratings games last = some f ∨ wl_pl_ratings games last = some f) :
    (∀ p, (∃ r, f p = some r) ↔ ∃ g ∈ games, ∃ x ∈ g, x.1 = p)
    ∧ ∀ p, (∀ g ∈ games, ∀ x ∈ g, x.1 ≠ p) → f p = none := by
  have hf : ∃ st, f = wlTable games st := by
    rcases heq with h | h
    · cases games with
      | nil => exact absurd h (by rw [wl_bt_ratings]; simp)
      | cons g t =>
        rw [wl_bt_ratings, Option.some_inj] at h
        exact ⟨_, h.symm⟩
    · cases games with
      | nil => exact absurd h (by rw [wl_pl_ratings]; simp)
      | cons g t =>
        rw [wl_pl_ratings, Option.map_eq_some'] at h
        obtain ⟨st, -, hst⟩ := h
        exact ⟨st, hst.symm⟩
  obtain ⟨st, rfl⟩ := hf
  constructor
  · intro p
    by_cases hp : p ∈ wlPlayers games
    · simp only [wlTable, if_pos hp, Option.some.injEq]
      constructor
      · intro _
        exact (wlPlayers_mem games p).mp hp
      · intro _
        exact ⟨_, rfl⟩
    · simp only [wlTable, if_neg hp]
      constructor
      · rintro ⟨r, hr⟩
        cases hr
      · intro hex
        exact absurd ((wlPlayers_mem games p).mpr hex) hp
  · intro p hnone
    have hp : p ∉ wlPlayers games := by
      intro hc
      obtain ⟨g, hg, x, hx, hxp⟩ := (wlPlayers_mem games p).mp hc
      exact hnone g hg x hx hxp
    simp only [wlTable, if_neg hp]

/-- Witness for C10: the table of a one-game corpus keeps the game's
players and drops a player known only to `last_ratings`. -/
theorem c10_witness :
    ∃ f, wl_bt_ratings [[(0, 1), (1, 2)]]
        (fun p => if p = 5 then some ⟨0, 1⟩ else none) = some f
      ∧ f 5 = none ∧ ∃ r, f 0 = some r := by
  refine ⟨_, rfl, ?_, ?_⟩
  · exact (c10_result_keys [[(0, 1), (1, 2)]] _ _ (Or.inl rfl)).2 5 (by decide)
  · exact ((c10_result_keys [[(0, 1), (1, 2)]] _ _ (Or.inl rfl)).1 0).mpr
      ⟨[(0, 1), (1, 2)], by decide, (0, 1), by decide, rfl⟩

/-- C8: the tie diagnostic of `wl_pl_ratings` fires on the game
`{1: 2, 0: 1}` — players listed worst rank first — although its ranks are
all distinct, because the test checks whether the most common rank value
is not 1 instead of whether any rank value is duplicated; the game is
still processed normally. -/
theorem c8_tie_message_on_distinct_ranks :
    foundTiedRanks [(1, 2), (0, 1)] = true
    ∧ (ranks [(1, 2), (0, 1)]).Nodup
    ∧ ∃ t, wl_pl_ratings [[(1, 2), (0, 1)]] (fun _ => none) = some t := by
  refine ⟨by decide, by decide, ?_⟩
  obtain ⟨st', hst'⟩ := foldlM_plGameStep_total [[(1, 2), (0, 1)]]
    (wlInit (fun _ => none)) (by decide)
  rw [wl_pl_ratings, hst']
  exact ⟨_, rfl⟩

theorem lookup_cons_self {β : Type} (k : Player) (b : β) (es : List (Player × β)) :
    List.lookup k ((k, b) :: es) = some b := by
  simp [List.lookup]

theorem lookup_cons_ne {β : Type} {v k : Player} (h : v ≠ k) (b : β) (es : List (Player × β)) :
    List.lookup v ((k, b) :: es) = List.lookup v es := by
  simp [List.lookup, beq_eq_false_iff_ne.mpr h]

theorem lookup_map_entry (t : PCEntry → PCEntry) (pc : PC) (u v : Player) :
    List.lookup v (pc.map (fun e => if e.1 = u then (e.1, t e.2) else e))
      = if v = u then (List.lookup v pc).map t else List.lookup v pc := by
  induction pc with
  | nil => simp
  | cons e rest ih =>
    rcases e with ⟨k, val⟩
    rw [List.map_cons]
    by_cases hku : k = u
    · rw [if_pos (show (k, val).1 = u from hku)]
      by_cases hvk : v = k
      · subst hvk
        rw [show ((v, val).1, t (v, val).2) = (v, t val) from rfl, lookup_cons_self,
          if_pos hku, lookup_cons_self]
        rfl
      · rw [show ((k, val).1, t (k, val).2) = (k, t val) from rfl, lookup_cons_ne hvk,
          lookup_cons_ne hvk]
        exact ih
    · rw [if_neg (show ¬(k, val).1 = u from hku)]
      by_cases hvk : v = k
      · subst hvk
        rw [lookup_cons_self, if_neg hku, lookup_cons_self]
      · rw [lookup_cons_ne hvk, lookup_cons_ne hvk]
        exact ih

theorem lookup_append_single (pc : PC) (u v : Player) (z : PCEntry)
    (hu : List.lookup u pc = none) :
    List.lookup v (pc ++ [(u, z)]) = if v = u then some z else List.lookup v pc := by
  induction pc with
  | nil =>
    by_cases hvu : v = u
    · subst hvu; simp [List.lookup]
    · simp [List.lookup, beq_eq_false_iff_ne.mpr hvu, hvu]
  | cons e rest ih =>
    rcases e with ⟨k, val⟩
    have hk : (u == k) = false := by
      by_contra hc
      rw [Bool.not_eq_false, beq_iff_eq] at hc
      subst hc
      simp [List.lookup] at hu
    by_cases hvk : v = k
    · subst hvk
      have : v ≠ u := fun hc => by
        subst hc
        simp at hk
      simp [List.lookup, this]
    · have hb : (v == k) = false := beq_eq_false_iff_ne.mpr hvk
      have hu' : List.lookup u rest = none := by
        simpa [List.lookup, hk] using hu
      simpa [List.lookup, hb] using ih hu'

theorem pcSetWin_lookup (pc : PC) (u v : Player) :
    List.lookup v (pcSetWin pc u)
      = if v = u then some (false, (pcGet pc u).2) else List.lookup v pc := by
  rw [pcSetWin]
  by_cases hu : (List.lookup u pc).isSome
  · rw [if_pos hu]
    rw [show (fun e : Player × PCEntry => if e.1 = u then (e.1, (false, e.2.2)) else e)
        = fun e => if e.1 = u then (e.1, (fun w : PCEntry => (false, w.2)) e.2) else e from rfl]
    rw [lookup_map_entry (fun w : PCEntry => (false, w.2)) pc u v]
    by_cases hvu : v = u
    · subst hvu
      obtain ⟨e, he⟩ := Option.isSome_iff_exists.mp hu
      rw [if_pos rfl, if_pos rfl, he, pcGet, he]
      rfl
    · rw [if_neg hvu, if_neg hvu]
  · rw [if_neg hu]
    rw [lookup_append_single pc u v _ (Option.not_isSome_iff_eq_none.mp hu)]
    by_cases hvu : v = u
    · subst hvu
      rw [if_pos rfl, if_pos rfl, pcGet, Option.not_isSome_iff_eq_none.mp hu]
      rfl
    · rw [if_neg hvu, if_neg hvu]

theorem pcSetLoss_lookup (pc : PC) (u v : Player) :
    List.lookup v (pcSetLoss pc u)
      = if v = u then some ((pcGet pc u).1, false) else List.lookup v pc := by
  rw [pcSetLoss]
  by_cases hu : (List.lookup u pc).isSome
  · rw [if_pos hu]
    rw [show (fun e : Player × PCEntry => if e.1 = u then (e.1, (e.2.1, false)) else e)
        = fun e => if e.1 = u then (e.1, (fun w : PCEntry => (w.1, false)) e.2) else e from rfl]
    rw [lookup_map_entry (fun w : PCEntry => (w.1, false)) pc u v]
    by_cases hvu : v = u
    · subst hvu
      obtain ⟨e, he⟩ := Option.isSome_iff_exists.mp hu
      rw [if_pos rfl, if_pos rfl, he, pcGet, he]
      rfl
    · rw [if_neg hvu, if_neg hvu]
  · rw [if_neg hu]
    rw [lookup_append_single pc u v _ (Option.not_isSome_iff_eq_none.mp hu)]
    by_cases hvu : v = u
    · subst hvu
      rw [if_pos rfl, if_pos rfl, pcGet, Option.not_isSome_iff_eq_none.mp hu]
      rfl
    · rw [if_neg hvu, if_neg hvu]

theorem pcSetWin_pcGet (pc : PC) (u v : Player) :
    pcGet (pcSetWin pc u) v = if v = u then (false, (pcGet pc u).2) else pcGet pc v := by
  rw [pcGet, pcSetWin_lookup]
  by_cases hvu : v = u
  · rw [if_pos hvu, if_pos hvu]
    rfl
  · rw [if_neg hvu, if_neg hvu, pcGet]

theorem pcSetLoss_pcGet (pc : PC) (u v : Player) :
    pcGet (pcSetLoss pc u) v = if v = u then ((pcGet pc u).1, false) else pcGet pc v := by
  rw [pcGet, pcSetLoss_lookup]
  by_cases hvu : v = u
  · rw [if_pos hvu, if_pos hvu]
    rfl
  · rw [if_neg hvu, if_neg hvu, pcGet]

theorem pcSetWin_isSome (pc : PC) (u v : Player) :
    (List.lookup v (pcSetWin pc u)).isSome = (decide (v = u) || (List.lookup v pc).isSome) := by
  rw [pcSetWin_lookup]
  by_cases hvu : v = u
  · simp [hvu]
  · simp [hvu]

theorem pcSetLoss_isSome (pc : PC) (u v : Player) :
    (List.lookup v (pcSetLoss pc u)).isSome = (decide (v = u) || (List.lookup v pc).isSome) := by
  rw [pcSetLoss_lookup]
  by_cases hvu : v = u
  · simp [hvu]
  · simp [hvu]

theorem foldMax_lt_iff (b a : ℤ) (rs : List ℤ) :
    b < foldMax a rs ↔ b < a ∨ ∃ y ∈ rs, b < y := by
  obtain ⟨h1, h2, h3⟩ := foldl_max_spec rs a
  rw [foldMax]
  constructor
  · intro h
    rcases h1 with hc | hc
    · left; rwa [hc] at h
    · right; exact ⟨_, hc, h⟩
  · rintro (h | ⟨y, hy, h⟩)
    · exact lt_of_lt_of_le h h2
    · exact lt_of_lt_of_le h (h3 y hy)

theorem scanLoss_cons (a : Player) (r : ℤ) (t : List (Player × ℤ)) (u : Player) :
    scanLoss ((a, r) :: t) u = ((decide (u = a) && decide (1 < r)) || scanLoss t u) := by
  rw [Bool.eq_iff_iff]
  simp only [scanLoss, List.any_cons, Bool.or_eq_true, Bool.and_eq_true, decide_eq_true_eq]
  constructor
  · rintro (⟨h1, h2⟩ | h)
    · exact Or.inl ⟨h1.symm, h2⟩
    · exact Or.inr h
  · rintro (⟨h1, h2⟩ | h)
    · exact Or.inl ⟨h1.symm, h2⟩
    · exact Or.inr h

theorem scanWin_gt_iff (a : Player) (r : ℤ) (t : List (Player × ℤ)) (mr : ℤ)
    (u : Player) (hlt : mr < r) :
    (scanWin ((a, r) :: t) mr none u = true
        ↔ scanWin t r (some a) u = true)
    ∧ ∀ m, (scanWin ((a, r) :: t) mr (some m) u = true
        ↔ (u = m ∨ scanWin t r (some a) u = true)) := by
  have hM : foldMax mr (((a, r) :: t).map (fun z => z.2)) = foldMax r (t.map (fun z => z.2)) := by
    rw [List.map_cons, foldMax, List.foldl_cons, max_eq_right (le_of_lt hlt)]
    rfl
  have hiff : r < foldMax r (t.map (fun z => z.2)) ↔ ∃ p ∈ t, r < p.2 := by
    rw [foldMax_lt_iff]
    constructor
    · rintro (h | ⟨y, hy, hr⟩)
      · exact absurd h (lt_irrefl r)
      · obtain ⟨p, hp, rfl⟩ := List.mem_map.mp hy
        exact ⟨p, hp, hr⟩
    · rintro ⟨p, hp, hr⟩
      exact Or.inr ⟨p.2, List.mem_map_of_mem _ hp, hr⟩
  constructor
  · simp only [scanWin, hM, List.any_cons, Bool.or_eq_true, Bool.and_eq_true,
      decide_eq_true_eq, List.any_eq_true, Bool.or_false, Bool.false_or]
    constructor
    · rintro (⟨ha, hr⟩ | hB)
      · exact Or.inr ⟨ha, hiff.mp hr⟩
      · exact Or.inl hB
    · rintro (hC | ⟨ha, hex⟩)
      · exact Or.inr hC
      · exact Or.inl ⟨ha, hiff.mpr hex⟩
  · intro m
    simp only [scanWin, hM, List.any_cons, Bool.or_eq_true, Bool.and_eq_true,
      decide_eq_true_eq, List.any_eq_true]
    constructor
    · rintro ((⟨ha, hr⟩ | hB) | ⟨hm, -⟩)
      · exact Or.inr (Or.inr ⟨ha, hiff.mp hr⟩)
      · exact Or.inr (Or.inl hB)
      · exact Or.inl hm.symm
    · rintro (hum | (hC | ⟨ha, hex⟩))
      · exact Or.inr ⟨hum.symm, Or.inl hlt⟩
      · exact Or.inl (Or.inr hC)
      · exact Or.inl (Or.inl ⟨ha, hiff.mpr hex⟩)

theorem scanWin_cons_gt_none (a : Player) (r : ℤ) (t : List (Player × ℤ)) (mr : ℤ)
    (u : Player) (hlt : mr < r) :
    scanWin ((a, r) :: t) mr none u = scanWin t r (some a) u := by
  rw [Bool.eq_iff_iff]
  exact (scanWin_gt_iff a r t mr u hlt).1

theorem scanWin_cons_gt_some (a : Player) (r : ℤ) (t : List (Player × ℤ)) (mr : ℤ)
    (m : Player) (u : Player) (hlt : mr < r) :
    scanWin ((a, r) :: t) mr (some m) u = (decide (u = m) || scanWin t r (some a) u) := by
  rw [Bool.eq_iff_iff]
  rw [(scanWin_gt_iff a r t mr u hlt).2 m]
  simp

theorem scanWin_cons_lt (a : Player) (r : ℤ) (t : List (Player × ℤ)) (mr : ℤ)
    (m : Player) (u : Player) (hlt : r < mr) :
    scanWin ((a, r) :: t) mr (some m) u = (decide (u = a) || scanWin t mr (some m) u) := by
  have hM : foldMax mr (((a, r) :: t).map (fun z => z.2)) = foldMax mr (t.map (fun z => z.2)) := by
    rw [List.map_cons, foldMax, List.foldl_cons, max_eq_left (le_of_lt hlt)]
    rfl
  have hub : mr ≤ foldMax mr (t.map (fun z => z.2)) := by
    rw [foldMax]
    exact (foldl_max_spec _ _).2.1
  have hrM : r < foldMax mr (t.map (fun z => z.2)) := lt_of_lt_of_le hlt hub
  rw [Bool.eq_iff_iff]
  simp only [scanWin, hM, List.any_cons, Bool.or_eq_true, Bool.and_eq_true,
    decide_eq_true_eq, List.any_eq_true]
  constructor
  · rintro ((⟨ha, -⟩ | hB) | ⟨hm, hex⟩)
    · exact Or.inl ha.symm
    · exact Or.inr (Or.inl hB)
    · rcases hex with hc | hex
      · exact absurd hc (lt_asymm hlt)
      · exact Or.inr (Or.inr ⟨hm, hex⟩)
  · rintro (hua | (hB | ⟨hm, hex⟩))
    · exact Or.inl (Or.inl ⟨hua.symm, hrM⟩)
    · exact Or.inl (Or.inr hB)
    · exact Or.inr ⟨hm, Or.inr hex⟩

theorem scanWin_nil (mr : ℤ) (mu : Option Player) (u : Player) :
    scanWin [] mr mu u = false := by
  cases mu <;> simp [scanWin]

theorem scanLoss_nil (u : Player) : scanLoss [] u = false := by
  simp [scanLoss]

theorem pcLoss_fst (pc : PC) (a : Player) (r : ℤ) (u : Player) :
    (pcGet (if 1 < r then pcSetLoss pc a else pc) u).1 = (pcGet pc u).1 := by
  by_cases hr : 1 < r
  · rw [if_pos hr, pcSetLoss_pcGet]
    by_cases hua : u = a
    · rw [if_pos hua, hua]
    · rw [if_neg hua]
  · rw [if_neg hr]

theorem pcLoss_snd (pc : PC) (a : Player) (r : ℤ) (u : Player) :
    (pcGet (if 1 < r then pcSetLoss pc a else pc) u).2
      = ((pcGet pc u).2 && !(decide (u = a) && decide (1 < r))) := by
  by_cases hr : 1 < r
  · rw [if_pos hr, pcSetLoss_pcGet]
    by_cases hua : u = a
    · rw [if_pos hua]
      simp [hua, hr]
    · rw [if_neg hua]
      simp [hua]
  · rw [if_neg hr]
    simp [hr]

theorem pcLoss_isSome (pc : PC) (a : Player) (r : ℤ) (u : Player) :
    (List.lookup u (if 1 < r then pcSetLoss pc a else pc)).isSome
      = ((decide (u = a) && decide (1 < r)) || (List.lookup u pc).isSome) := by
  by_cases hr : 1 < r
  · rw [if_pos hr, pcSetLoss_isSome]
    simp [hr]
  · rw [if_neg hr]
    simp [hr]

theorem pcWin_fst (pc : PC) (w u : Player) :
    (pcGet (pcSetWin pc w) u).1 = ((pcGet pc u).1 && !decide (u = w)) := by
  rw [pcSetWin_pcGet]
  by_cases huw : u = w
  · rw [if_pos huw]
    simp [huw]
  · rw [if_neg huw]
    simp [huw]

theorem pcWin_snd (pc : PC) (w u : Player) :
    (pcGet (pcSetWin pc w) u).2 = (pcGet pc u).2 := by
  rw [pcSetWin_pcGet]
  by_cases huw : u = w
  · rw [if_pos huw, huw]
  · rw [if_neg huw]

theorem cgFold_spec :
    ∀ (t : List (Player × ℤ)) (mr : ℤ) (mu : Option Player) (pc : PC),
      (t.map (fun z => z.2)).Nodup →
      (∀ x ∈ t, 1 ≤ x.2) →
      (∀ x ∈ t, x.2 ≠ mr) →
      (mu = none → mr = 0) →
      ∀ u,
        pcGet ((t.foldl cgItem ⟨mr, mu, pc⟩).pc) u
            = ((pcGet pc u).1 && !(scanWin t mr mu u), (pcGet pc u).2 && !(scanLoss t u))
          ∧ (List.lookup u ((t.foldl cgItem ⟨mr, mu, pc⟩).pc)).isSome
            = ((List.lookup u pc).isSome || scanWin t mr mu u || scanLoss t u) := by
  intro t
  induction t with
  | nil =>
    intro mr mu pc h1 h2 h3 h4 u
    rw [List.foldl_nil, scanWin_nil, scanLoss_nil]
    constructor
    · simp
    · simp
  | cons x t ih =>
    intro mr mu pc h1 h2 h3 h4 u
    rcases x with ⟨a, r⟩
    rw [List.foldl_cons]
    have hr1 : (1 : ℤ) ≤ r := h2 (a, r) (List.mem_cons_self _ _)
    have hrmr : r ≠ mr := h3 (a, r) (List.mem_cons_self _ _)
    have h1t : (t.map (fun z => z.2)).Nodup := by
      rw [List.map_cons] at h1
      exact h1.of_cons
    have h2t : ∀ x ∈ t, (1 : ℤ) ≤ x.2 := fun y hy => h2 y (List.mem_cons_of_mem _ hy)
    have hrt : ∀ x ∈ t, x.2 ≠ r := by
      rw [List.map_cons, List.nodup_cons] at h1
      intro y hy hc
      apply h1.1
      show r ∈ List.map (fun z => z.2) t
      rw [← hc]
      exact List.mem_map_of_mem _ hy
    rcases lt_or_gt_of_ne hrmr with hlt | hgt
    · cases mu with
      | none =>
        exfalso
        rw [h4 rfl] at hlt
        omega
      | some m =>
        have hstep : cgItem ⟨mr, some m, pc⟩ (a, r)
            = ⟨mr, some m, pcSetWin (if 1 < r then pcSetLoss pc a else pc) a⟩ := by
          rw [cgItem]
          rw [if_neg (lt_asymm hlt), if_pos hlt]
        rw [hstep]
        have h3t : ∀ x ∈ t, x.2 ≠ mr := fun y hy => h3 y (List.mem_cons_of_mem _ hy)
        obtain ⟨ihget, ihsome⟩ := ih mr (some m)
          (pcSetWin (if 1 < r then pcSetLoss pc a else pc) a)
          h1t h2t h3t (fun h => nomatch h) u
        constructor
        · rw [ihget, scanWin_cons_lt a r t mr m u hlt, scanLoss_cons,
            pcWin_fst, pcLoss_fst, pcWin_snd, pcLoss_snd]
          cases h5 : (pcGet pc u).1 <;> cases h6 : (pcGet pc u).2 <;>
            cases h7 : decide (u = a) <;> cases h8 : decide (1 < r) <;>
            cases h9 : scanWin t mr (some m) u <;> cases h0 : scanLoss t u <;> rfl
        · rw [ihsome, scanWin_cons_lt a r t mr m u hlt, scanLoss_cons,
            pcSetWin_isSome, pcLoss_isSome]
          cases h7 : decide (u = a) <;> cases h8 : decide (1 < r) <;>
            cases h5 : (List.lookup u pc).isSome <;>
            cases h9 : scanWin t mr (some m) u <;> cases h0 : scanLoss t u <;> rfl
    · cases mu with
      | none =>
        have hstep : cgItem ⟨mr, none, pc⟩ (a, r)
            = ⟨r, some a, if 1 < r then pcSetLoss pc a else pc⟩ := by
          rw [cgItem]
          rw [if_pos hgt]
        rw [hstep]
        obtain ⟨ihget, ihsome⟩ := ih r (some a) (if 1 < r then pcSetLoss pc a else pc)
          h1t h2t hrt (fun h => nomatch h) u
        constructor
        · rw [ihget, scanWin_cons_gt_none a r t mr u hgt, scanLoss_cons,
            pcLoss_fst, pcLoss_snd]
          cases h5 : (pcGet pc u).1 <;> cases h6 : (pcGet pc u).2 <;>
            cases h7 : decide (u = a) <;> cases h8 : decide (1 < r) <;>
            cases h9 : scanWin t r (some a) u <;> cases h0 : scanLoss t u <;> rfl
        · rw [ihsome, scanWin_cons_gt_none a r t mr u hgt, scanLoss_cons, pcLoss_isSome]
          cases h7 : decide (u = a) <;> cases h8 : decide (1 < r) <;>
            cases h5 : (List.lookup u pc).isSome <;>
            cases h9 : scanWin t r (some a) u <;> cases h0 : scanLoss t u <;> rfl
      | some m =>
        have hstep : cgItem ⟨mr, some m, pc⟩ (a, r)
            = ⟨r, some a, pcSetWin (if 1 < r then pcSetLoss pc a else pc) m⟩ := by
          rw [cgItem]
          rw [if_pos hgt]
        rw [hstep]
        obtain ⟨ihget, ihsome⟩ := ih r (some a)
          (pcSetWin (if 1 < r then pcSetLoss pc a else pc) m)
          h1t h2t hrt (fun h => nomatch h) u
        constructor
        · rw [ihget, scanWin_cons_gt_some a r t mr m u hgt, scanLoss_cons,
            pcWin_fst, pcLoss_fst, pcWin_snd, pcLoss_snd]
          cases h5 : (pcGet pc u).1 <;> cases h6 : (pcGet pc u).2 <;>
            cases h7 : decide (u = a) <;> cases h4 : decide (u = m) <;>
            cases h8 : decide (1 < r) <;>
            cases h9 : scanWin t r (some a) u <;> cases h0 : scanLoss t u <;> rfl
        · rw [ihsome, scanWin_cons_gt_some a r t mr m u hgt, scanLoss_cons,
            pcSetWin_isSome, pcLoss_isSome]
          cases h7 : decide (u = a) <;> cases h4 : decide (u = m) <;>
            cases h8 : decide (1 < r) <;>
            cases h5 : (List.lookup u pc).isSome <;>
            cases h9 : scanWin t r (some a) u <;> cases h0 : scanLoss t u <;> rfl

theorem foldMax_zero_eq_maxRank (g : Game) (h2 : ∀ x ∈ g, (1 : ℤ) ≤ x.2) (hne : g ≠ []) :
    foldMax 0 (g.map (fun z => z.2)) = maxRank g := by
  obtain ⟨x, t, rfl⟩ : ∃ x t, g = x :: t := by
    cases g with
    | nil => exact absurd rfl hne
    | cons x t => exact ⟨x, t, rfl⟩
  rw [List.map_cons, foldMax, List.foldl_cons,
    max_eq_right (le_trans zero_le_one (h2 x (List.mem_cons_self _ _)))]
  rfl

theorem scanWin_game (g : Game) (h2 : ∀ x ∈ g, (1 : ℤ) ≤ x.2) (u : Player) :
    scanWin g 0 none u = g.any (fun x => decide (x.1 = u) && decide (x.2 < maxRank g)) := by
  cases hg : g with
  | nil => simp [scanWin]
  | cons x t =>
    subst hg
    rw [scanWin, foldMax_zero_eq_maxRank (x :: t) h2 (by simp)]
    simp

theorem scanLoss_game (g : Game) (u : Player) :
    scanLoss g u = g.any (fun x => decide (x.1 = u) && decide (1 < x.2)) := rfl

theorem foldl_cgGame_spec :
    ∀ (games : List Game) (pc : PC),
      (∀ g ∈ games, (ranks g).Nodup ∧ ∀ x ∈ g, (1 : ℤ) ≤ x.2) →
      ∀ u,
        pcGet (games.foldl cgGame pc) u
            = ((pcGet pc u).1 && !(hasWin games u), (pcGet pc u).2 && !(hasLoss games u))
          ∧ (List.lookup u (games.foldl cgGame pc)).isSome
            = ((List.lookup u pc).isSome || hasWin games u || hasLoss games u) := by
  intro games
  induction games with
  | nil =>
    intro pc h u
    constructor
    · simp [hasWin, hasLoss]
    · simp [hasWin, hasLoss]
  | cons g t ih =>
    intro pc h u
    rw [List.foldl_cons]
    obtain ⟨hnd, hpos⟩ := h g (List.mem_cons_self _ _)
    have hnz : ∀ x ∈ g, x.2 ≠ 0 := by
      intro x hx
      have := hpos x hx
      omega
    obtain ⟨hget, hsome⟩ := cgFold_spec g 0 none pc hnd hpos hnz (fun _ => rfl) u
    have hwin : scanWin g 0 none u = g.any (fun x => decide (x.1 = u) && decide (x.2 < maxRank g)) :=
      scanWin_game g hpos u
    obtain ⟨ihget, ihsome⟩ := ih (cgGame pc g) (fun g' hg' => h g' (List.mem_cons_of_mem _ hg')) u
    have hcw : hasWin (g :: t) u
        = (g.any (fun x => decide (x.1 = u) && decide (x.2 < maxRank g)) || hasWin t u) := by
      rw [hasWin, List.any_cons]
      rfl
    have hcl : hasLoss (g :: t) u
        = (g.any (fun x => decide (x.1 = u) && decide (1 < x.2)) || hasLoss t u) := by
      rw [hasLoss, List.any_cons]
      rfl
    have hgg : pcGet (cgGame pc g) u
        = ((pcGet pc u).1 && !(g.any (fun x => decide (x.1 = u) && decide (x.2 < maxRank g))),
          (pcGet pc u).2 && !(g.any (fun x => decide (x.1 = u) && decide (1 < x.2)))) := by
      rw [cgGame, hget, hwin, scanLoss_game]
    have hgs : (List.lookup u (cgGame pc g)).isSome
        = ((List.lookup u pc).isSome
            || g.any (fun x => decide (x.1 = u) && decide (x.2 < maxRank g))
            || g.any (fun x => decide (x.1 = u) && decide (1 < x.2))) := by
      rw [cgGame, hsome, hwin, scanLoss_game]
    constructor
    · rw [ihget, hgg, hcw, hcl]
      cases h5 : (pcGet pc u).1 <;> cases h6 : (pcGet pc u).2 <;>
        cases h7 : g.any (fun x => decide (x.1 = u) && decide (x.2 < maxRank g)) <;>
        cases h8 : g.any (fun x => decide (x.1 = u) && decide (1 < x.2)) <;>
        cases h9 : hasWin t u <;> cases h0 : hasLoss t u <;> rfl
    · rw [ihsome, hgs, hcw, hcl]
      cases h5 : (List.lookup u pc).isSome <;>
        cases h7 : g.any (fun x => decide (x.1 = u) && decide (x.2 < maxRank g)) <;>
        cases h8 : g.any (fun x => decide (x.1 = u) && decide (1 < x.2)) <;>
        cases h9 : hasWin t u <;> cases h0 : hasLoss t u <;> rfl

theorem lookup_none_iff_not_mem_keys (pc : PC) (u : Player) :
    List.lookup u pc = none ↔ u ∉ pc.map Prod.fst := by
  induction pc with
  | nil => simp [List.lookup]
  | cons e rest ih =>
    rcases e with ⟨k, v⟩
    by_cases huk : u = k
    · subst huk
      rw [lookup_cons_self]
      simp
    · rw [lookup_cons_ne huk]
      simp [huk, ih]

theorem mem_of_lookup_eq_some {pc : PC} {u : Player} {val : PCEntry}
    (h : List.lookup u pc = some val) : (u, val) ∈ pc := by
  induction pc with
  | nil => simp [List.lookup] at h
  | cons e rest ih =>
    rcases e with ⟨k, v⟩
    by_cases huk : u = k
    · subst huk
      rw [lookup_cons_self] at h
      cases h
      exact List.mem_cons_self _ _
    · rw [lookup_cons_ne huk] at h
      exact List.mem_cons_of_mem _ (ih h)

theorem lookup_eq_some_of_mem_nodup {pc : PC} (hnd : (pc.map Prod.fst).Nodup)
    {u : Player} {val : PCEntry} (h : (u, val) ∈ pc) : List.lookup u pc = some val := by
  induction pc with
  | nil => simp at h
  | cons e rest ih =>
    rcases e with ⟨k, v⟩
    rw [List.map_cons, List.nodup_cons] at hnd
    rcases List.mem_cons.mp h with heq | hmem
    · injection heq with h1 h2
      subst h1
      subst h2
      exact lookup_cons_self _ _ _
    · by_cases huk : u = k
      · subst huk
        exact absurd (List.mem_map.mpr ⟨(u, val), hmem, rfl⟩) hnd.1
      · rw [lookup_cons_ne huk]
        exact ih hnd.2 hmem

theorem pcSetWin_keys_nodup {pc : PC} (h : (pc.map Prod.fst).Nodup) (u : Player) :
    ((pcSetWin pc u).map Prod.fst).Nodup := by
  rw [pcSetWin]
  by_cases hu : (List.lookup u pc).isSome
  · rw [if_pos hu]
    have hkeys : (pc.map (fun e => if e.1 = u then (e.1, (false, e.2.2)) else e)).map Prod.fst
        = pc.map Prod.fst := by
      rw [List.map_map]
      apply List.map_congr_left
      intro e he
      by_cases h1 : e.1 = u <;> simp [h1]
    rw [hkeys]
    exact h
  · rw [if_neg hu, List.map_append]
    refine List.Nodup.append h (by simp) ?_
    intro a ha hb
    simp only [List.map_cons, List.map_nil, List.mem_cons, List.not_mem_nil, or_false] at hb
    subst hb
    exact (lookup_none_iff_not_mem_keys pc a).mp (Option.not_isSome_iff_eq_none.mp hu) ha

theorem pcSetLoss_keys_nodup {pc : PC} (h : (pc.map Prod.fst).Nodup) (u : Player) :
    ((pcSetLoss pc u).map Prod.fst).Nodup := by
  rw [pcSetLoss]
  by_cases hu : (List.lookup u pc).isSome
  · rw [if_pos hu]
    have hkeys : (pc.map (fun e => if e.1 = u then (e.1, (e.2.1, false)) else e)).map Prod.fst
        = pc.map Prod.fst := by
      rw [List.map_map]
      apply List.map_congr_left
      intro e he
      by_cases h1 : e.1 = u <;> simp [h1]
    rw [hkeys]
    exact h
  · rw [if_neg hu, List.map_append]
    refine List.Nodup.append h (by simp) ?_
    intro a ha hb
    simp only [List.map_cons, List.map_nil, List.mem_cons, List.not_mem_nil, or_false] at hb
    subst hb
    exact (lookup_none_iff_not_mem_keys pc a).mp (Option.not_isSome_iff_eq_none.mp hu) ha

theorem cgItem_keys_nodup {st : CGState} (h : (st.pc.map Prod.fst).Nodup) (x : Player × ℤ) :
    (((cgItem st x).pc).map Prod.fst).Nodup := by
  rw [cgItem]
  have h1 : ((if 1 < x.2 then pcSetLoss st.pc x.1 else st.pc).map Prod.fst).Nodup := by
    by_cases hr : 1 < x.2
    · rw [if_pos hr]
      exact pcSetLoss_keys_nodup h x.1
    · rw [if_neg hr]
      exact h
  by_cases hgt : st.max_rank < x.2
  · rw [if_pos hgt]
    cases hmu : st.max_user with
    | none => exact h1
    | some m => exact pcSetWin_keys_nodup h1 m
  · rw [if_neg hgt]
    by_cases hlt : x.2 < st.max_rank
    · rw [if_pos hlt]
      exact pcSetWin_keys_nodup h1 x.1
    · rw [if_neg hlt]
      exact h1

theorem cgFold_keys_nodup :
    ∀ (t : List (Player × ℤ)) (st : CGState), (st.pc.map Prod.fst).Nodup →
      (((t.foldl cgItem st).pc).map Prod.fst).Nodup := by
  intro t
  induction t with
  | nil => intro st h; exact h
  | cons x rest ih =>
    intro st h
    rw [List.foldl_cons]
    exact ih _ (cgItem_keys_nodup h x)

theorem foldl_cgGame_keys_nodup :
    ∀ (games : List Game) (pc : PC), (pc.map Prod.fst).Nodup →
      ((games.foldl cgGame pc).map Prod.fst).Nodup := by
  intro games
  induction games with
  | nil => intro pc h; exact h
  | cons g t ih =>
    intro pc h
    rw [List.foldl_cons]
    exact ih _ (cgFold_keys_nodup g ⟨0, none, pc⟩ h)

theorem missing_wl_pos_iff (pc : PC) :
    0 < missing_wl pc ↔ ∃ e ∈ pc, e.2.1 = true ∨ e.2.2 = true := by
  rw [missing_wl]
  induction pc with
  | nil => simp
  | cons e rest ih =>
    rw [List.map_cons, List.sum_cons]
    have hhead : 0 < ((if e.2.1 = true then 1 else 0) + if e.2.2 = true then 1 else 0)
        ↔ (e.2.1 = true ∨ e.2.2 = true) := by
      cases hx : e.2.1 <;> cases hy : e.2.2 <;> simp
    rw [add_pos_iff, hhead, ih]
    constructor
    · rintro (hf | ⟨e', he', hflag⟩)
      · exact ⟨e, List.mem_cons_self _ _, hf⟩
      · exact ⟨e', List.mem_cons_of_mem _ he', hflag⟩
    · rintro ⟨e', he', hflag⟩
      rcases List.mem_cons.mp he' with rfl | hmem
      · exact Or.inl hflag
      · exact Or.inr ⟨e', hmem, hflag⟩

theorem collectWL_fold_spec :
    ∀ (pc : PC) (acc : List Player × List Player),
      (∀ e ∈ pc, ¬(e.2.1 = true ∧ e.2.2 = true)) →
      ∃ res, pc.foldlM
          (fun (acc : List Player × List Player) e =>
            if !e.2.1 && !e.2.2 then some acc
            else if e.2.1 && e.2.2 then none
            else if e.2.1 then some (acc.1, acc.2 ++ [e.1])
            else some (acc.1 ++ [e.1], acc.2))
          acc = some res
        ∧ (∀ u, u ∈ res.1 ↔ u ∈ acc.1 ∨ ∃ e ∈ pc, e.1 = u ∧ e.2.1 = false ∧ e.2.2 = true)
        ∧ (∀ u, u ∈ res.2 ↔ u ∈ acc.2 ∨ ∃ e ∈ pc, e.1 = u ∧ e.2.1 = true ∧ e.2.2 = false) := by
  intro pc
  induction pc with
  | nil =>
    intro acc h
    exact ⟨acc, rfl, by simp, by simp⟩
  | cons e rest ih =>
    intro acc h
    rcases e with ⟨k, w, l⟩
    rw [List.foldlM_cons]
    cases hw : w <;> cases hl : l
    · obtain ⟨res, hres, h1, h2⟩ := ih acc (fun e he => h e (List.mem_cons_of_mem _ he))
      refine ⟨res, hres, ?_, ?_⟩
      · intro u
        rw [h1]
        constructor
        · rintro (ha | ⟨e', he', hp⟩)
          · exact Or.inl ha
          · exact Or.inr ⟨e', List.mem_cons_of_mem _ he', hp⟩
        · rintro (ha | ⟨e', he', hp⟩)
          · exact Or.inl ha
          · rcases List.mem_cons.mp he' with rfl | hmem
            · exact absurd hp.2.2 (by simp)
            · exact Or.inr ⟨e', hmem, hp⟩
      · intro u
        rw [h2]
        constructor
        · rintro (ha | ⟨e', he', hp⟩)
          · exact Or.inl ha
          · exact Or.inr ⟨e', List.mem_cons_of_mem _ he', hp⟩
        · rintro (ha | ⟨e', he', hp⟩)
          · exact Or.inl ha
          · rcases List.mem_cons.mp he' with rfl | hmem
            · exact absurd hp.2.1 (by simp)
            · exact Or.inr ⟨e', hmem, hp⟩
    · obtain ⟨res, hres, h1, h2⟩ :=
        ih (acc.1 ++ [k], acc.2) (fun e he => h e (List.mem_cons_of_mem _ he))
      refine ⟨res, hres, ?_, ?_⟩
      · intro u
        rw [h1]
        constructor
        · rintro (ha | ⟨e', he', hp⟩)
          · rcases List.mem_append.mp ha with ha | ha
            · exact Or.inl ha
            · exact Or.inr ⟨(k, (false, true)), List.mem_cons_self _ _,
                (List.mem_singleton.mp ha).symm, rfl, rfl⟩
          · exact Or.inr ⟨e', List.mem_cons_of_mem _ he', hp⟩
        · rintro (ha | ⟨e', he', hp⟩)
          · exact Or.inl (List.mem_append.mpr (Or.inl ha))
          · rcases List.mem_cons.mp he' with rfl | hmem
            · exact Or.inl (List.mem_append.mpr (Or.inr (List.mem_singleton.mpr hp.1.symm)))
            · exact Or.inr ⟨e', hmem, hp⟩
      · intro u
        rw [h2]
        constructor
        · rintro (ha | ⟨e', he', hp⟩)
          · exact Or.inl ha
          · exact Or.inr ⟨e', List.mem_cons_of_mem _ he', hp⟩
        · rintro (ha | ⟨e', he', hp⟩)
          · exact Or.inl ha
          · rcases List.mem_cons.mp he' with rfl | hmem
            · exact absurd hp.2.1 (by simp)
            · exact Or.inr ⟨e', hmem, hp⟩
    · obtain ⟨res, hres, h1, h2⟩ :=
        ih (acc.1, acc.2 ++ [k]) (fun e he => h e (List.mem_cons_of_mem _ he))
      refine ⟨res, hres, ?_, ?_⟩
      · intro u
        rw [h1]
        constructor
        · rintro (ha | ⟨e', he', hp⟩)
          · exact Or.inl ha
          · exact Or.inr ⟨e', List.mem_cons_of_mem _ he', hp⟩
        · rintro (ha | ⟨e', he', hp⟩)
          · exact Or.inl ha
          · rcases List.mem_cons.mp he' with rfl | hmem
            · exact absurd hp.2.2 (by simp)
            · exact Or.inr ⟨e', hmem, hp⟩
      · intro u
        rw [h2]
        constructor
        · rintro (ha | ⟨e', he', hp⟩)
          · rcases List.mem_append.mp ha with ha | ha
            · exact Or.inl ha
            · exact Or.inr ⟨(k, (true, false)), List.mem_cons_self _ _,
                (List.mem_singleton.mp ha).symm, rfl, rfl⟩
          · exact Or.inr ⟨e', List.mem_cons_of_mem _ he', hp⟩
        · rintro (ha | ⟨e', he', hp⟩)
          · exact Or.inl (List.mem_append.mpr (Or.inl ha))
          · rcases List.mem_cons.mp he' with rfl | hmem
            · exact Or.inl (List.mem_append.mpr (Or.inr (List.mem_singleton.mpr hp.1.symm)))
            · exact Or.inr ⟨e', hmem, hp⟩
    · exact absurd ⟨hw, hl⟩ (h (k, (w, l)) (List.mem_cons_self _ _))

theorem collectWL_spec (pc : PC) (h : ∀ e ∈ pc, ¬(e.2.1 = true ∧ e.2.2 = true)) :
    ∃ res, collectWL pc = some res
      ∧ (∀ u, u ∈ res.1 ↔ ∃ e ∈ pc, e.1 = u ∧ e.2.1 = false ∧ e.2.2 = true)
      ∧ (∀ u, u ∈ res.2 ↔ ∃ e ∈ pc, e.1 = u ∧ e.2.1 = true ∧ e.2.2 = false) := by
  obtain ⟨res, hres, h1, h2⟩ := collectWL_fold_spec pc ([], []) h
  refine ⟨res, hres, ?_, ?_⟩
  · intro u
    rw [h1]
    simp
  · intro u
    rw [h2]
    simp

theorem hasWin_eq_beatsSomeone (games : List Game) (u : Player) :
    hasWin games u = beatsSomeone games u := by
  rw [Bool.eq_iff_iff]
  simp only [hasWin, beatsSomeone, List.any_eq_true, Bool.and_eq_true, decide_eq_true_eq]
  constructor
  · rintro ⟨g, hg, x, hx, hxu, hlt⟩
    have hne : g ≠ [] := List.ne_nil_of_mem hx
    obtain ⟨y, hy, hyr⟩ := List.mem_map.mp (maxRank_spec hne).1
    refine ⟨g, hg, x, hx, hxu, y, hy, ?_⟩
    rw [hyr]
    exact hlt
  · rintro ⟨g, hg, x, hx, hxu, y, hy, hlt⟩
    have hne : g ≠ [] := List.ne_nil_of_mem hx
    refine ⟨g, hg, x, hx, hxu, ?_⟩
    have := (maxRank_spec hne).2 y.2 (List.mem_map_of_mem _ hy)
    omega

theorem hasLoss_eq_isBeaten (games : List Game) (hwf : ∀ g ∈ games, wfGame g) (u : Player) :
    hasLoss games u = isBeaten games u := by
  rw [Bool.eq_iff_iff]
  simp only [hasLoss, isBeaten, List.any_eq_true, Bool.and_eq_true, decide_eq_true_eq]
  constructor
  · rintro ⟨g, hg, x, hx, hxu, h1⟩
    obtain ⟨y, hy, hyr⟩ := List.mem_map.mp (hwf g hg).2.2.2.1
    refine ⟨g, hg, x, hx, hxu, y, hy, ?_⟩
    rw [hyr]
    exact h1
  · rintro ⟨g, hg, x, hx, hxu, y, hy, hlt⟩
    have hy1 : (1 : ℤ) ≤ y.2 := (hwf g hg).2.2.1 y hy
    refine ⟨g, hg, x, hx, hxu, ?_⟩
    omega

theorem exists_ne_rank {g : Game} (hwf : wfGame g) : ∀ x ∈ g, ∃ y ∈ g, y.2 ≠ x.2 := by
  obtain ⟨-, hnd, -, -, hlen⟩ := hwf
  cases g with
  | nil => simp at hlen
  | cons a t =>
    cases t with
    | nil => simp at hlen
    | cons b rest =>
      intro x hx
      have hab : a.2 ≠ b.2 := by
        rw [ranks, List.map_cons, List.map_cons, List.nodup_cons] at hnd
        intro hc
        exact hnd.1 (by rw [hc]; exact List.mem_cons_self _ _)
      by_cases hxa : x.2 = a.2
      · refine ⟨b, List.mem_cons_of_mem _ (List.mem_cons_self _ _), ?_⟩
        rw [hxa]
        exact fun hc => hab hc.symm
      · exact ⟨a, List.mem_cons_self _ _, fun hc => hxa hc.symm⟩

theorem alwaysWon_iff_flags (games : List Game) (hwf : ∀ g ∈ games, wfGame g) (u : Player) :
    alwaysWonSpec games u ↔ (hasWin games u = true ∧ hasLoss games u = false) := by
  rw [alwaysWonSpec, hasWin_eq_beatsSomeone games, hasLoss_eq_isBeaten games hwf]
  constructor
  · rintro ⟨hin, hnb⟩
    refine ⟨?_, hnb⟩
    simp only [inGames, List.any_eq_true, decide_eq_true_eq] at hin
    obtain ⟨g, hg, x, hx, hxu⟩ := hin
    obtain ⟨y, hy, hyne⟩ := exists_ne_rank (hwf g hg) x hx
    rcases lt_or_gt_of_ne hyne with hlt | hgt
    · -- y.2 < x.2: u is beaten, contradicting hnb
      exfalso
      have : isBeaten games u = true := by
        simp only [isBeaten, List.any_eq_true, Bool.and_eq_true, decide_eq_true_eq]
        exact ⟨g, hg, x, hx, hxu, y, hy, hlt⟩
      rw [this] at hnb
      cases hnb
    · -- x.2 < y.2: u beats y
      simp only [beatsSomeone, List.any_eq_true, Bool.and_eq_true, decide_eq_true_eq]
      exact ⟨g, hg, x, hx, hxu, y, hy, hgt⟩
  · rintro ⟨hb, hnb⟩
    refine ⟨?_, hnb⟩
    simp only [beatsSomeone, List.any_eq_true, Bool.and_eq_true, decide_eq_true_eq] at hb
    obtain ⟨g, hg, x, hx, hxu, -⟩ := hb
    simp only [inGames, List.any_eq_true, decide_eq_true_eq]
    exact ⟨g, hg, x, hx, hxu⟩

theorem alwaysLost_iff_flags (games : List Game) (hwf : ∀ g ∈ games, wfGame g) (u : Player) :
    alwaysLostSpec games u ↔ (hasWin games u = false ∧ hasLoss games u = true) := by
  rw [alwaysLostSpec, hasWin_eq_beatsSomeone games, hasLoss_eq_isBeaten games hwf]
  constructor
  · rintro ⟨hin, hnb⟩
    refine ⟨hnb, ?_⟩
    simp only [inGames, List.any_eq_true, decide_eq_true_eq] at hin
    obtain ⟨g, hg, x, hx, hxu⟩ := hin
    obtain ⟨y, hy, hyne⟩ := exists_ne_rank (hwf g hg) x hx
    rcases lt_or_gt_of_ne hyne with hlt | hgt
    · simp only [isBeaten, List.any_eq_true, Bool.and_eq_true, decide_eq_true_eq]
      exact ⟨g, hg, x, hx, hxu, y, hy, hlt⟩
    · exfalso
      have : beatsSomeone games u = true := by
        simp only [beatsSomeone, List.any_eq_true, Bool.and_eq_true, decide_eq_true_eq]
        exact ⟨g, hg, x, hx, hxu, y, hy, hgt⟩
      rw [this] at hnb
      cases hnb
  · rintro ⟨hnb, hb⟩
    refine ⟨?_, hnb⟩
    simp only [isBeaten, List.any_eq_true, Bool.and_eq_true, decide_eq_true_eq] at hb
    obtain ⟨g, hg, x, hx, hxu, -⟩ := hb
    simp only [inGames, List.any_eq_true, decide_eq_true_eq]
    exact ⟨g, hg, x, hx, hxu⟩

theorem pc_flags (games : List Game) (hwf : ∀ g ∈ games, wfGame g) (u : Player) :
    pcGet (games.foldl cgGame []) u = (!(hasWin games u), !(hasLoss games u))
      ∧ (List.lookup u (games.foldl cgGame [])).isSome
          = (hasWin games u || hasLoss games u) := by
  obtain ⟨h1, h2⟩ := foldl_cgGame_spec games []
    (fun g hg => ⟨(hwf g hg).2.1, (hwf g hg).2.2.1⟩) u
  constructor
  · rw [h1]
    simp [pcGet]
  · rw [h2]
    simp

theorem pc_mem_flag_iff (games : List Game) (hwf : ∀ g ∈ games, wfGame g)
    (u : Player) (a b : Bool) (hab : ¬(a = true ∧ b = true)) :
    (u, (a, b)) ∈ games.foldl cgGame []
      ↔ ((!(hasWin games u)) = a ∧ (!(hasLoss games u)) = b) := by
  have hnd : ((games.foldl cgGame []).map Prod.fst).Nodup :=
    foldl_cgGame_keys_nodup games [] (by simp)
  have hget := (pc_flags games hwf u).1
  have hiss := (pc_flags games hwf u).2
  constructor
  · intro hmem
    have hlk := lookup_eq_some_of_mem_nodup hnd hmem
    rw [pcGet, hlk, Option.getD_some] at hget
    have h1 : (a, b).1 = (!(hasWin games u), !(hasLoss games u)).1 := by rw [hget]
    have h2 : (a, b).2 = (!(hasWin games u), !(hasLoss games u)).2 := by rw [hget]
    exact ⟨h1.symm, h2.symm⟩
  · rintro ⟨h1, h2⟩
    have hor : hasWin games u = true ∨ hasLoss games u = true := by
      cases hcw : hasWin games u with
      | true => exact Or.inl rfl
      | false =>
        cases hcl : hasLoss games u with
        | true => exact Or.inr rfl
        | false =>
          exfalso
          rw [hcw] at h1
          rw [hcl] at h2
          exact hab ⟨h1.symm, h2.symm⟩
    have hsome : (List.lookup u (games.foldl cgGame [])).isSome = true := by
      rw [hiss]
      rcases hor with h | h <;> rw [h] <;> simp
    cases hlk : List.lookup u (games.foldl cgGame []) with
    | none => rw [hlk] at hsome; cases hsome
    | some v =>
      rw [pcGet, hlk, Option.getD_some] at hget
      rw [hget, h1, h2] at hlk
      exact mem_of_lookup_eq_some hlk

theorem pc_noboth (games : List Game) (hwf : ∀ g ∈ games, wfGame g) :
    ∀ e ∈ games.foldl cgGame [], ¬(e.2.1 = true ∧ e.2.2 = true) := by
  have hnd : ((games.foldl cgGame []).map Prod.fst).Nodup :=
    foldl_cgGame_keys_nodup games [] (by simp)
  rintro e hmem ⟨hw1, hl1⟩
  have hlk := lookup_eq_some_of_mem_nodup hnd hmem
  have hget := (pc_flags games hwf e.1).1
  have hiss := (pc_flags games hwf e.1).2
  rw [pcGet, hlk, Option.getD_some] at hget
  have he : e.2.1 = !(hasWin games e.1) ∧ e.2.2 = !(hasLoss games e.1) := by
    rw [hget]
    exact ⟨rfl, rfl⟩
  have hWf : hasWin games e.1 = false := by
    have h1 : (!(hasWin games e.1)) = true := by rw [← he.1, hw1]
    simp at h1
    exact h1
  have hLf : hasLoss games e.1 = false := by
    have h2 : (!(hasLoss games e.1)) = true := by rw [← he.2, hl1]
    simp at h2
    exact h2
  have hsome : (List.lookup e.1 (games.foldl cgGame [])).isSome = true := by
    rw [hlk]
    rfl
  rw [hiss, hWf, hLf] at hsome
  exact absurd hsome (by decide)

/-- C6 (amended): under well-formed game records (distinct players, distinct
ranks that are at least 1 and include a first place, at least two
participants) `check_games` raises no exception and flags exactly the
always-won players (never beaten by a co-participant) as winners and the
always-lost players (never finishing strictly better than a co-participant)
as losers, the two sets being disjoint; when no player is always-won or
always-lost it returns `(None, None)`. -/
theorem c6_amended_check_games (games : List Game) (hwf : ∀ g ∈ games, wfGame g) :
    ∃ res, check_games games = some res
      ∧ ((res = (none, none)
            ∧ ∀ u, ¬alwaysWonSpec games u ∧ ¬alwaysLostSpec games u)
        ∨ (∃ winners losers, res = (some winners, some losers)
            ∧ (∀ u, u ∈ winners ↔ alwaysWonSpec games u)
            ∧ (∀ u, u ∈ losers ↔ alwaysLostSpec games u)
            ∧ ∀ u, ¬(u ∈ winners ∧ u ∈ losers))) := by
  by_cases hm : 0 < missing_wl (games.foldl cgGame [])
  · obtain ⟨res, hres, hrw, hrl⟩ := collectWL_spec (games.foldl cgGame [])
      (pc_noboth games hwf)
    have hwin_iff : ∀ u, u ∈ res.1 ↔ (hasWin games u = true ∧ hasLoss games u = false) := by
      intro u
      rw [hrw u]
      constructor
      · rintro ⟨e, hmem, hek, hw1, hl1⟩
        have hel : e = (u, ((false : Bool), (true : Bool))) := by
          have h0 : e = (e.1, (e.2.1, e.2.2)) := rfl
          rw [h0, hek, hw1, hl1]
        rw [hel] at hmem
        obtain ⟨hfw, hfl⟩ := (pc_mem_flag_iff games hwf u false true (by simp)).mp hmem
        constructor
        · simp at hfw
          exact hfw
        · simp at hfl
          exact hfl
      · rintro ⟨hcw, hcl⟩
        refine ⟨(u, ((false : Bool), (true : Bool))), ?_, rfl, rfl, rfl⟩
        exact (pc_mem_flag_iff games hwf u false true (by simp)).mpr
          ⟨by rw [hcw]; rfl, by rw [hcl]; rfl⟩
    have hlose_iff : ∀ u, u ∈ res.2 ↔ (hasWin games u = false ∧ hasLoss games u = true) := by
      intro u
      rw [hrl u]
      constructor
      · rintro ⟨e, hmem, hek, hw1, hl1⟩
        have hel : e = (u, ((true : Bool), (false : Bool))) := by
          have h0 : e = (e.1, (e.2.1, e.2.2)) := rfl
          rw [h0, hek, hw1, hl1]
        rw [hel] at hmem
        obtain ⟨hfw, hfl⟩ := (pc_mem_flag_iff games hwf u true false (by simp)).mp hmem
        constructor
        · simp at hfw
          exact hfw
        · simp at hfl
          exact hfl
      · rintro ⟨hcw, hcl⟩
        refine ⟨(u, ((true : Bool), (false : Bool))), ?_, rfl, rfl, rfl⟩
        exact (pc_mem_flag_iff games hwf u true false (by simp)).mpr
          ⟨by rw [hcw]; rfl, by rw [hcl]; rfl⟩
    refine ⟨(some res.1, some res.2), ?_, Or.inr ⟨res.1, res.2, rfl, ?_, ?_, ?_⟩⟩
    · simp only [check_games, if_pos hm, hres, Option.map_some']
    · intro u
      rw [alwaysWon_iff_flags games hwf u]
      exact hwin_iff u
    · intro u
      rw [alwaysLost_iff_flags games hwf u]
      exact hlose_iff u
    · rintro u ⟨h1, h2⟩
      have a1 := (hwin_iff u).mp h1
      have a2 := (hlose_iff u).mp h2
      exact absurd (a1.1.symm.trans a2.1) (by decide)
  · refine ⟨(none, none), ?_, Or.inl ⟨rfl, ?_⟩⟩
    · simp only [check_games, if_neg hm]
    · intro u
      constructor
      · intro hc
        obtain ⟨hcw, hcl⟩ := (alwaysWon_iff_flags games hwf u).mp hc
        have hmem := (pc_mem_flag_iff games hwf u false true (by simp)).mpr
          ⟨by rw [hcw]; rfl, by rw [hcl]; rfl⟩
        exact hm ((missing_wl_pos_iff _).mpr ⟨(u, (false, true)), hmem, Or.inr rfl⟩)
      · intro hc
        obtain ⟨hcw, hcl⟩ := (alwaysLost_iff_flags games hwf u).mp hc
        have hmem := (pc_mem_flag_iff games hwf u true false (by simp)).mpr
          ⟨by rw [hcw]; rfl, by rw [hcl]; rfl⟩
        exact hm ((missing_wl_pos_iff _).mpr ⟨(u, (true, false)), hmem, Or.inl rfl⟩)

/-- C6 counterexample: on the single game `{0: 1, 1: 1}` (two players tied at
rank 1) `check_games` flags nobody and returns `(None, None)`, yet player 0
participates and never finishes strictly better than any co-participant, so
the always-lost set is non-empty: the claimed partition of flagged players
into exactly the always-lost and always-won sets fails on tied ranks. -/
theorem c6_counterexample :
    check_games ([[(0, 1), (1, 1)]] : List Game) = some (none, none)
      ∧ alwaysLostSpec ([[(0, 1), (1, 1)]] : List Game) 0 := by
  refine ⟨rfl, rfl, rfl⟩

/-- C6 witness: the amended theorem instantiated on the single well-formed
game `{0: 1, 1: 2}`. -/
theorem c6_amended_witness :
    (∀ g ∈ ([[(0, 1), (1, 2)]] : List Game), wfGame g)
      ∧ ∃ res, check_games ([[(0, 1), (1, 2)]] : List Game) = some res
        ∧ ((res = (none, none)
              ∧ ∀ u, ¬alwaysWonSpec ([[(0, 1), (1, 2)]] : List Game) u
                  ∧ ¬alwaysLostSpec ([[(0, 1), (1, 2)]] : List Game) u)
          ∨ (∃ winners losers, res = (some winners, some losers)
              ∧ (∀ u, u ∈ winners ↔ alwaysWonSpec ([[(0, 1), (1, 2)]] : List Game) u)
              ∧ (∀ u, u ∈ losers ↔ alwaysLostSpec ([[(0, 1), (1, 2)]] : List Game) u)
              ∧ ∀ u, ¬(u ∈ winners ∧ u ∈ losers))) :=
  ⟨fun g hg => by
      rw [List.mem_singleton] at hg
      subst hg
      exact ⟨by decide, by decide, by decide, by decide, by decide⟩,
    c6_amended_check_games ([[(0, 1), (1, 2)]] : List Game) (fun g hg => by
      rw [List.mem_singleton] at hg
      subst hg
      exact ⟨by decide, by decide, by decide, by decide, by decide⟩)⟩
